import Mathlib

/-!
Verification development for the `MethodTransform` IR layer of redex
(`src/libredex/Transform.h`).

The header gives only declarations for most operations (balloon, sync,
try_sync, build_cfg, PostOrderSort, the inliners and the liveness query),
so those operations are modelled from the specification; the parts whose
bodies do appear in the header (notably the `TryEntry` constructor with
its `always_assert`) are embedded directly from the source.

Machine pointers are modelled as natural-number identities; a nullable
pointer is an `Option Nat`.  `always_assert`, which aborts the process,
is modelled by the constructor returning `none`.
-/

namespace Redex

/-! ## TryEntry (embedded from source, Transform.h lines 23-37) -/

/-- `enum TryEntryType { TRY_START = 0, TRY_END = 1 };` -/
inductive TryEntryType
  | TRY_START
  | TRY_END
deriving DecidableEq, Repr

/-- `struct TryEntry { TryEntryType type; MethodItemEntry* catch_start; ... }`.
The `catch_start` field is stored non-null, as a plain node identity. -/
structure TryEntry where
  type : TryEntryType
  catch_start : Nat
deriving DecidableEq, Repr

/-- The `TryEntry(TryEntryType, MethodItemEntry*)` constructor.  It runs
`always_assert(catch_start != nullptr)`, which aborts the process on a null
argument; the abort is modelled as `none`. -/
def TryEntry.make (t : TryEntryType) (catch_start : Option Nat) : Option TryEntry :=
  match catch_start with
  | none => none
  | some c => some ⟨t, c⟩

/-! ## Transform cache (modelled from the spec)

`Modelled from the spec:` the bodies of `get_method_transform`,
`get_new_method` and `sync_all` are not in the header (Transform.h declares
them at lines 240-249 over the static `s_cache` map).  Spec 4.4: the cache
maps a method identity to at most one live transform; `get_method_transform`
returns the cached transform if present, otherwise creates, registers and
returns a new one; `sync_all` flushes every transform and removes each from
the cache.  Methods and transform instances are modelled as `Nat`
identities; pointer identity of transforms is identity of these numbers. -/

structure CacheState where
  cache : List (Nat × Nat)
  nextId : Nat
deriving DecidableEq, Repr

def lookupCache (m : Nat) : List (Nat × Nat) → Option Nat
  | [] => none
  | (k, v) :: rest => if k = m then some v else lookupCache m rest

/-- `get_method_transform`: return the cached transform when present,
otherwise decode the method into a fresh transform, register it and return
it.  The returned `Nat` is the transform instance's identity. -/
def get_method_transform (m : Nat) (s : CacheState) : Nat × CacheState :=
  match lookupCache m s.cache with
  | some t => (t, s)
  | none => (s.nextId, ⟨(m, s.nextId) :: s.cache, s.nextId + 1⟩)

/-- `sync_all`: flush every transform in the cache and remove each entry. -/
def sync_all (s : CacheState) : CacheState :=
  ⟨[], s.nextId⟩

/-- A sequence of further `get_method_transform` calls (for arbitrary
methods), used to state that no intervening call disturbs a cached entry. -/
def runGets : List Nat → CacheState → CacheState
  | [], s => s
  | m :: ms, s => runGets ms (get_method_transform m s).2

/-! ## Inlining engine (modelled from the spec)

`Modelled from the spec:` the bodies of `inline_tail_call` (Transform.h
lines 258-260) and `inline_16regs` (lines 262-265) are not in the header.
Spec 4.6: `inline_tail_call` replaces the call instruction with the
callee's full instruction sequence, mapping the callee's parameter
registers positionally onto the registers the caller passed at the call
site; `inline_16regs` reports legality failures (register budget
exhausted even after widening, incompatible exception structure) by
returning `false` and leaving the caller unchanged. -/

/-- An instruction as the inliner sees it: an opcode and its register
operands. -/
structure DexInsn where
  op : Nat
  regs : List Nat
deriving DecidableEq, Repr

/-- A callee body: its parameter registers (in positional order) and its
instruction sequence. -/
structure CalleeBody where
  params : List Nat
  body : List DexInsn
deriving DecidableEq, Repr

/-- Position of a register in a parameter list. -/
def posOf (r : Nat) : List Nat → Option Nat
  | [] => none
  | p :: ps => if p = r then some 0 else (posOf r ps).map (· + 1)

/-- Positional parameter-register remapping: the k-th parameter register of
the callee becomes the k-th register passed at the call site; other
registers are untouched. -/
def remapReg (params args : List Nat) (r : Nat) : Nat :=
  match posOf r params with
  | some i => args.getD i 0
  | none => r

def remapInsn (params args : List Nat) (n : DexInsn) : DexInsn :=
  ⟨n.op, n.regs.map (remapReg params args)⟩

/-- `inline_tail_call`: splice the callee's body (registers remapped
positionally onto the call-site argument registers) in place of the call
instruction at position `i` of the caller. -/
def inline_tail_call (caller : List DexInsn) (callee : CalleeBody)
    (args : List Nat) (i : Nat) : List DexInsn :=
  caller.take i ++ callee.body.map (remapInsn callee.params args)
    ++ caller.drop (i + 1)

/-- Inline-context data consumed by `inline_16regs`: the caller's current
register-file size, the registers known dead at the splice point (from the
cached liveness analysis), and whether the call site lies inside a try
region. -/
structure InlineBudget where
  callerRegs : Nat
  deadRegs : List Nat
  callerInTry : Bool
deriving DecidableEq, Repr

/-- A callee as `inline_16regs` sees it: how many registers its body
needs, its exception regions, and its instruction sequence. -/
structure Callee16 where
  regsNeeded : Nat
  tries : List (Nat × Nat)
  body : List DexInsn
deriving DecidableEq, Repr

/-- The register budget is satisfiable when enough dead registers exist at
the splice point, or when widening the caller's register file keeps the
total within the 16-register budget. -/
def budgetOk (ctx : InlineBudget) (needed : Nat) : Bool :=
  decide (needed ≤ ctx.deadRegs.length) ||
    decide (ctx.callerRegs + (needed - ctx.deadRegs.length) ≤ 16)

/-- The callee's exception-region structure is compatible with splicing at
the call site when the callee has no try regions or the call site is not
itself inside a try region. -/
def excCompatible (ctx : InlineBudget) (callee : Callee16) : Bool :=
  callee.tries.isEmpty || !ctx.callerInTry

/-- Target registers for the callee's frame: dead caller registers first,
then freshly widened registers at the top of the caller's file. -/
def regAssignment (ctx : InlineBudget) (needed : Nat) : List Nat :=
  ctx.deadRegs.take needed ++
    (List.range (needed - ctx.deadRegs.length)).map (· + ctx.callerRegs)

def remapInto (assign : List Nat) (n : DexInsn) : DexInsn :=
  ⟨n.op, n.regs.map (fun r => assign.getD r r)⟩

/-- `inline_16regs`: when the register budget is satisfiable and the
exception structure is compatible, splice the remapped callee body over
the call instruction and report `true`; otherwise report `false` with the
caller untouched. -/
def inline_16regs (ctx : InlineBudget) (callee : Callee16)
    (caller : List DexInsn) (site : Nat) : Bool × List DexInsn :=
  if budgetOk ctx callee.regsNeeded && excCompatible ctx callee then
    (true, caller.take site
      ++ callee.body.map (remapInto (regAssignment ctx callee.regsNeeded))
      ++ caller.drop (site + 1))
  else
    (false, caller)

/-! ## Decode/encode engine (modelled from the spec)

`Modelled from the spec:` the bodies of `balloon`, `sync` and `try_sync`
(Transform.h lines 198-206 and 270-271) are not in the header.  Spec 4.3:
`balloon` decodes a fixed-width encoded method into an address-independent
IR (branch operands and try-table addresses become node references); `sync`
writes the IR back by repeatedly invoking the relaxation pass `try_sync`
until it reports success; `try_sync` assigns tentative addresses in
sequence order, computes the operand each branch reference needs, and when
an operand does not fit the currently chosen width it widens that one
instruction in place and reports failure.

The encoding is modelled with two branch widths (`narrow`, one code unit
with an 8-bit signed offset, and `wide`, three code units fitting any
offset); non-branch instructions have a fixed positive width.  Branch
references in the IR are instruction indices, which is the
address-independence the FatMethod's interleaved target nodes provide. -/

inductive BW
  | narrow
  | wide
deriving DecidableEq, Repr

/-- Width in code units of a branch encoding. -/
def BW.units : BW → Nat
  | .narrow => 1
  | .wide => 3

/-- An encoded instruction: opcode, base size (non-branch width is
`base + 1` code units), branch flag, chosen branch encoding width, and
branch offset in code units relative to the instruction's own address. -/
structure EInsn where
  op : Nat
  base : Nat
  isBranch : Bool
  bw : BW
  off : Int
deriving DecidableEq, Repr

def EInsn.width (e : EInsn) : Nat :=
  if e.isBranch then e.bw.units else e.base + 1

/-- An encoded try-table entry: an address range, typed handlers in
priority order (type, handler address), and an optional catch-all handler
address. -/
structure ETry where
  startAddr : Nat
  endAddr : Nat
  handlers : List (Nat × Nat)
  catchAll : Option Nat
deriving DecidableEq, Repr

structure EncodedMethod where
  insns : List EInsn
  tries : List ETry
deriving DecidableEq, Repr

/-- An IR instruction: like `EInsn` but the branch operand is the index of
the target instruction, independent of any address. -/
structure IRInsn where
  op : Nat
  base : Nat
  isBranch : Bool
  bw : BW
  target : Nat
deriving DecidableEq, Repr

instance : Inhabited IRInsn := ⟨⟨0, 0, false, BW.narrow, 0⟩⟩

def IRInsn.width (x : IRInsn) : Nat :=
  if x.isBranch then x.bw.units else x.base + 1

/-- An IR try region: instruction-index range, typed handlers (type,
handler index) and optional catch-all handler index. -/
structure IRTry where
  startIdx : Nat
  endIdx : Nat
  handlers : List (Nat × Nat)
  catchAll : Option Nat
deriving DecidableEq, Repr

structure IRMethod where
  insns : List IRInsn
  tries : List IRTry
deriving DecidableEq, Repr

/-- Address of the `i`-th encoded instruction (sum of earlier widths). -/
def eAddr (l : List EInsn) (i : Nat) : Nat := ((l.take i).map EInsn.width).sum

/-- Tentative address of the `i`-th IR instruction. -/
def irAddr (l : List IRInsn) (i : Nat) : Nat := ((l.take i).map IRInsn.width).sum

/-- Resolve an absolute address to the index of the instruction starting
there (the one-past-the-end position is also addressable, like an
iterator); `none` on an address inside an instruction or out of range. -/
def addrToIdx : List EInsn → Int → Option Nat
  | [], a => if a = 0 then some 0 else none
  | e :: rest, a =>
    if a = 0 then some 0
    else (addrToIdx rest (a - (e.width : Int))).map (· + 1)

/-- Decode one instruction: a branch's offset is resolved against the
encoded addresses to the target instruction's index. -/
def balloonInsn (l : List EInsn) (i : Nat) (e : EInsn) : Option IRInsn :=
  if e.isBranch then
    (addrToIdx l ((eAddr l i : Int) + e.off)).map
      (fun t => ⟨e.op, e.base, true, e.bw, t⟩)
  else some ⟨e.op, e.base, false, e.bw, 0⟩

def balloonInsns (l : List EInsn) : Nat → List EInsn → Option (List IRInsn)
  | _, [] => some []
  | i, e :: rest =>
    match balloonInsn l i e with
    | none => none
    | some x =>
      match balloonInsns l (i + 1) rest with
      | none => none
      | some xs => some (x :: xs)

/-- Resolve a try entry's handler addresses to instruction indices. -/
def resolveHandlers (l : List EInsn) : List (Nat × Nat) → Option (List (Nat × Nat))
  | [] => some []
  | p :: rest =>
    match addrToIdx l (p.2 : Int) with
    | none => none
    | some h =>
      match resolveHandlers l rest with
      | none => none
      | some hs => some ((p.1, h) :: hs)

def balloonTry (l : List EInsn) (t : ETry) : Option IRTry :=
  match addrToIdx l (t.startAddr : Int) with
  | none => none
  | some s =>
    match addrToIdx l (t.endAddr : Int) with
    | none => none
    | some en =>
      match resolveHandlers l t.handlers with
      | none => none
      | some hs =>
        match t.catchAll with
        | none => some ⟨s, en, hs, none⟩
        | some a =>
          match addrToIdx l (a : Int) with
          | none => none
          | some ha => some ⟨s, en, hs, some ha⟩

def balloonTries (l : List EInsn) : List ETry → Option (List IRTry)
  | [] => some []
  | t :: rest =>
    match balloonTry l t with
    | none => none
    | some it =>
      match balloonTries l rest with
      | none => none
      | some its => some (it :: its)

/-- `balloon`: decode an encoded method into the address-independent IR;
`none` models the fatal-invariant channel on malformed input. -/
def balloon (M : EncodedMethod) : Option IRMethod :=
  match balloonInsns M.insns 0 M.insns with
  | none => none
  | some xs =>
    match balloonTries M.insns M.tries with
    | none => none
    | some ts => some ⟨xs, ts⟩

/-- Whether an offset fits the given branch encoding width. -/
def fits (bw : BW) (off : Int) : Bool :=
  match bw with
  | .wide => true
  | .narrow => decide (-128 ≤ off) && decide (off ≤ 127)

/-- Operand a branch at index `i` needs under the current tentative
addresses. -/
def reqOff (l : List IRInsn) (i : Nat) (x : IRInsn) : Int :=
  (irAddr l x.target : Int) - (irAddr l i : Int)

/-- The instruction at index `i` is a branch whose required operand does
not fit its currently chosen width. -/
def badAt (l : List IRInsn) (i : Nat) : Bool :=
  (l.getD i default).isBranch &&
    !(fits (l.getD i default).bw (reqOff l i (l.getD i default)))

def firstBad (l : List IRInsn) : Option Nat :=
  (List.range l.length).find? (fun i => badAt l i)

/-- Widen one instruction's encoding in place. -/
def widen (x : IRInsn) : IRInsn := ⟨x.op, x.base, x.isBranch, BW.wide, x.target⟩

/-- One relaxation pass: assign tentative addresses, and either report
convergence or widen the first instruction whose operand does not fit and
report failure. -/
def try_sync (m : IRMethod) : Bool × IRMethod :=
  match firstBad m.insns with
  | some i => (false, ⟨m.insns.set i (widen (m.insns.getD i default)), m.tries⟩)
  | none => (true, m)

def emitInsn (l : List IRInsn) (i : Nat) (x : IRInsn) : EInsn :=
  ⟨x.op, x.base, x.isBranch, x.bw, if x.isBranch then reqOff l i x else 0⟩

def emitInsns (l : List IRInsn) : Nat → List IRInsn → List EInsn
  | _, [] => []
  | i, x :: rest => emitInsn l i x :: emitInsns l (i + 1) rest

def emitTry (l : List IRInsn) (t : IRTry) : ETry :=
  ⟨irAddr l t.startIdx, irAddr l t.endIdx,
   t.handlers.map (fun p => (p.1, irAddr l p.2)),
   t.catchAll.map (irAddr l)⟩

/-- Write the converged IR back to encoded form. -/
def emit (m : IRMethod) : EncodedMethod :=
  ⟨emitInsns m.insns 0 m.insns, m.tries.map (emitTry m.insns)⟩

/-- Number of instructions still capable of widening. -/
def narrowCount (m : IRMethod) : Nat :=
  m.insns.countP (fun x => x.isBranch && x.bw == BW.narrow)

def syncLoop : Nat → IRMethod → Option IRMethod
  | 0, _ => none
  | n + 1, m =>
    match try_sync m with
    | (true, m') => some m'
    | (false, m') => syncLoop n m'

/-- `sync`: invoke `try_sync` until it reports success (the monotone
widening bound `narrowCount m + 1` always suffices), then emit. -/
def sync (m : IRMethod) : Option EncodedMethod :=
  (syncLoop (narrowCount m + 1) m).map emit

/-- The width-independent skeleton of an IR instruction: everything except
the chosen branch-encoding width. -/
def skel (x : IRInsn) : Nat × Nat × Bool × Nat := (x.op, x.base, x.isBranch, x.target)

/-- Semantic equivalence of two IR methods: same instructions in the same
order (up to encoding width), same branch targets, same exception-region
structure. -/
def irEquiv (a b : IRMethod) : Prop :=
  a.insns.map skel = b.insns.map skel ∧ a.tries = b.tries

/-- A concrete IR method whose leading branch (narrow, 8-bit offset) must
jump over a 200-unit instruction, forcing one widening pass. -/
def exM : IRMethod :=
  ⟨[⟨5, 0, true, BW.narrow, 2⟩, ⟨6, 199, false, BW.narrow, 0⟩,
    ⟨7, 0, false, BW.narrow, 0⟩], []⟩

/-- A concrete encoded method exercising the balloon/sync round trip: a
forward branch over a 200-unit instruction into a try region. -/
def exE : EncodedMethod :=
  ⟨[⟨5, 0, true, BW.wide, 203⟩, ⟨6, 199, false, BW.narrow, 0⟩,
    ⟨7, 0, false, BW.narrow, 0⟩],
   [⟨203, 204, [(11, 0)], some 203⟩]⟩

/-- The IR `balloon` produces for `exE`. -/
def exIR : IRMethod :=
  ⟨[⟨5, 0, true, BW.wide, 2⟩, ⟨6, 199, false, BW.narrow, 0⟩,
    ⟨7, 0, false, BW.narrow, 0⟩], [⟨2, 3, [(11, 0)], some 2⟩]⟩

/-! ## Control-flow-graph builder (modelled from the spec)

`Modelled from the spec:` the body of `build_cfg` (Transform.h line 208)
is not in the header.  Spec 4.2: block boundaries are induced by
try-region start/end markers, branch-target markers, catch entries,
explicit branch instructions and instructions that may raise; the builder
scans the sequence once, opening a new block whenever a boundary condition
is met, assigning ids in sequence order, then resolves each block's
successors from its terminating instruction and populates predecessor
lists as the inverse relation. -/

/-- A `MethodItemEntry` as the CFG builder sees it.  A branch-target node
records the node index of its source branch (`BranchTarget::src`); an
opcode records whether it is an unconditional branch, a conditional
branch, or may raise. -/
inductive MItem
  | mtry (t : TryEntryType) (catchIdx : Nat)
  | mcatch (ty : Option Nat)
  | mop (uncond cond mayThrow : Bool)
  | mtarget (src : Nat)
  | mdebug
  | mpos
  | mfall
deriving DecidableEq, Repr

/-- Does a new block begin at a node, given the node before it? -/
def startsB (prev cur : MItem) : Bool :=
  (match cur with
   | .mtry _ _ => true
   | .mtarget _ => true
   | .mcatch _ => true
   | _ => false) ||
  (match prev with
   | .mop u c t => u || c || t
   | _ => false)

def splitGo (cur : List (Nat × MItem)) (prev : MItem) :
    List (Nat × MItem) → List (List (Nat × MItem))
  | [] => [cur.reverse]
  | x :: rest =>
    if startsB prev x.2 then cur.reverse :: splitGo [x] x.2 rest
    else splitGo (x :: cur) x.2 rest

/-- Partition an indexed node sequence into basic blocks (one scan, ids in
sequence order). -/
def splitBlocks : List (Nat × MItem) → List (List (Nat × MItem))
  | [] => []
  | x :: rest => splitGo [x] x.2 rest

def buildBlocks (l : List MItem) : List (List (Nat × MItem)) :=
  splitBlocks l.enum

/-- Id of the block containing the node at index `n`. -/
def blockOfNode (blocks : List (List (Nat × MItem))) (n : Nat) : Option Nat :=
  (List.range blocks.length).find?
    (fun j => (blocks.getD j []).any (fun p => p.1 == n))

/-- Node indices of the branch-target nodes whose source is node `s`. -/
def targetsOf (l : List MItem) (s : Nat) : List Nat :=
  (List.range l.length).filter
    (fun t => decide (l.getD t MItem.mfall = MItem.mtarget s))

def openCatchesAux : List MItem → List Nat → List Nat
  | [], acc => acc
  | x :: rest, acc =>
    match x with
    | .mtry TryEntryType.TRY_START c => openCatchesAux rest (c :: acc)
    | .mtry TryEntryType.TRY_END c => openCatchesAux rest (acc.erase c)
    | _ => openCatchesAux rest acc

/-- Catch-entry node indices of the try regions still open before node
`upTo` (the enclosing handlers of that program point). -/
def openCatches (l : List MItem) (upTo : Nat) : List Nat :=
  openCatchesAux (l.take upTo) []

/-- Successor block ids of block `j`, resolved from its terminating
node: unconditional branch to its target block; conditional branch to the
target block plus the physical next block; may-raise to the physical next
block plus each enclosing handler's block; otherwise fallthrough to the
physical next block. -/
def blockSuccs (l : List MItem) (blocks : List (List (Nat × MItem)))
    (j : Nat) : List Nat :=
  match (blocks.getD j []).getLast? with
  | none => []
  | some (n, x) =>
    match x with
    | .mop u c t =>
      let branchSuccs := (targetsOf l n).filterMap (blockOfNode blocks)
      let next := if j + 1 < blocks.length then [j + 1] else []
      let catches := (openCatches l (n + 1)).filterMap (blockOfNode blocks)
      if u then branchSuccs
      else if c then branchSuccs ++ next
      else if t then next ++ catches
      else next
    | _ => if j + 1 < blocks.length then [j + 1] else []

/-- Predecessor block ids: the inverse of the successor relation. -/
def blockPreds (l : List MItem) (blocks : List (List (Nat × MItem)))
    (j : Nat) : List Nat :=
  (List.range blocks.length).filter
    (fun i => decide (j ∈ blockSuccs l blocks i))

/-- The control-flow graph of a node sequence: its blocks and, for each
block id, its successor and predecessor lists. -/
structure CFGm where
  blocks : List (List (Nat × MItem))
  succs : List (List Nat)
  preds : List (List Nat)
deriving DecidableEq, Repr

def build_cfg (l : List MItem) : CFGm :=
  let blocks := buildBlocks l
  ⟨blocks, (List.range blocks.length).map (blockSuccs l blocks),
    (List.range blocks.length).map (blockPreds l blocks)⟩

/-- Concrete node sequence for the CFG claims: a straight-line block, a
target-headed block ending in a conditional branch back to it, and a
catch-entry block. -/
def exNodes : List MItem :=
  [MItem.mop false false false, MItem.mtarget 3, MItem.mop false false false,
   MItem.mop false true false, MItem.mcatch none]

/-! ## Postorder sequencer (modelled from the spec)

`Modelled from the spec:` the bodies of `PostOrderSort::postorder` and
`PostOrderSort::get` (Transform.h lines 171-183) are not in the header.
Spec 4.2: a depth-first traversal from the entry block using an explicit
visited set keyed by block identity; a block is appended to the result
only after all of its successors have been visited (or are already on the
visited set); implemented iteratively with an explicit stack.  The CFG is
given as one successor list per block id. -/

def succsOf (cfg : List (List Nat)) (b : Nat) : List Nat := cfg.getD b []

/-- State of the iterative DFS: the explicit stack (each frame holds a
block and its not-yet-examined successors), the visited set, and the
postorder output accumulated so far. -/
structure POState where
  stack : List (Nat × List Nat)
  visited : List Nat
  out : List Nat
deriving DecidableEq, Repr

def stackBlocks (stack : List (Nat × List Nat)) : List Nat :=
  stack.map Prod.fst

/-- One step of the iterative DFS: finish the top frame when its successor
list is exhausted (appending its block to the output), skip an
already-visited successor, or push a frame for an unvisited successor,
marking it visited on entry. -/
def poStep (cfg : List (List Nat)) (st : POState) : POState :=
  match st.stack with
  | [] => st
  | (b, []) :: rest => ⟨rest, st.visited, st.out ++ [b]⟩
  | (b, s :: ss) :: rest =>
    if s ∈ st.visited then ⟨(b, ss) :: rest, st.visited, st.out⟩
    else ⟨(s, succsOf cfg s) :: (b, ss) :: rest, s :: st.visited, st.out⟩

def poRun (cfg : List (List Nat)) : Nat → POState → POState
  | 0, st => st
  | n + 1, st => poRun cfg n (poStep cfg st)

def poInit (cfg : List (List Nat)) (root : Nat) : POState :=
  ⟨[(root, succsOf cfg root)], [root], []⟩

def stackWeight (stack : List (Nat × List Nat)) : Nat :=
  (stack.map (fun p => 1 + p.2.length)).sum

/-- Upper bound on how many blocks can ever be marked visited. -/
def poBound (cfg : List (List Nat)) : Nat := 1 + cfg.flatten.length

/-- Upper bound on the length of any successor list. -/
def succBound (cfg : List (List Nat)) : Nat :=
  (cfg.map List.length).foldr max 0

/-- Termination measure of the DFS. -/
def poMeasure (cfg : List (List Nat)) (st : POState) : Nat :=
  (2 + succBound cfg) * (poBound cfg - st.visited.length)
    + stackWeight st.stack

/-- `PostOrderSort(cfg).get()`: run the DFS from the entry block to
completion and return the postorder sequence. -/
def PostOrderSort (cfg : List (List Nat)) : List Nat :=
  (poRun cfg (poMeasure cfg (poInit cfg 0)) (poInit cfg 0)).out

/-- Reachability from the entry along successor edges. -/
def Reach (cfg : List (List Nat)) (root b : Nat) : Prop :=
  Relation.ReflTransGen (fun x y => y ∈ succsOf cfg x) root b

/-- The DFS invariant: the visited set is exactly the finished blocks
plus the pending (on-stack) blocks; no block is finished or pending
twice; visited blocks are the root or appear in some successor list, and
are reachable; a finished block's successors are all visited; and each
stack frame's already-examined successors are all visited. -/
structure POInv (cfg : List (List Nat)) (root : Nat) (st : POState) : Prop where
  visited_iff : ∀ x, x ∈ st.visited ↔ x ∈ st.out ∨ x ∈ stackBlocks st.stack
  nodup : (st.out ++ stackBlocks st.stack).Nodup
  visited_nodup : st.visited.Nodup
  visited_sub : ∀ x ∈ st.visited, x = root ∨ x ∈ cfg.flatten
  reach : ∀ x ∈ st.visited, Reach cfg root x
  out_closed : ∀ x ∈ st.out, ∀ s ∈ succsOf cfg x, s ∈ st.visited
  stack_inv : ∀ pr ∈ st.stack,
    ∃ pre, succsOf cfg pr.1 = pre ++ pr.2 ∧ ∀ s ∈ pre, s ∈ st.visited

/-- Concrete CFG for the postorder claim: a three-block chain with a back
edge. -/
def exCfg : List (List Nat) := [[1], [2], [0]]

/-! ## Cached liveness analysis (modelled from the spec)

`Modelled from the spec:` the body of `InlineContext::live_out`
(Transform.h lines 314-321) and the `LivenessMap` solver behind it are not
in the header.  Spec 4.7: a backward dataflow over the caller's CFG
computing, for every program point, the set of registers whose value may
be read before being overwritten along some path from that point;
`live_out I` is the live set immediately after instruction `I`.  The
solver iterates the backward transfer function from the empty assignment
until the assignment is stable. -/

/-- An instruction as the liveness solver sees it: registers read,
registers written, successor instruction indices. -/
structure LInstr where
  uses : List Nat
  defs : List Nat
  succ : List Nat
deriving DecidableEq, Repr

instance : Inhabited LInstr := ⟨⟨[], [], []⟩⟩

/-- Union of `f` over a list of successors. -/
def unionMap (f : Nat → List Nat) : List Nat → List Nat
  | [] => []
  | j :: rest => f j ++ unionMap f rest

/-- Registers live immediately before instruction `j`:
`uses(j) ∪ (out(j) \ defs(j))`. -/
def liveIn (p : List LInstr) (outs : List (List Nat)) (j : Nat) : List Nat :=
  (p.getD j default).uses ++
    (outs.getD j []).filter (fun r => decide (r ∉ (p.getD j default).defs))

/-- One backward dataflow pass: `out(i) := ⋃ j ∈ succ(i), liveIn(j)`. -/
def transfer (p : List LInstr) (outs : List (List Nat)) : List (List Nat) :=
  (List.range p.length).map
    (fun i => unionMap (liveIn p outs) (p.getD i default).succ)

/-- `live_out` after `fuel` solver iterations from the empty assignment. -/
def live_out (p : List LInstr) : Nat → List (List Nat)
  | 0 => List.replicate p.length []
  | n + 1 => transfer p (live_out p n)

/-- The assignment is stable (a post-fixpoint of the backward transfer):
one more pass adds no register anywhere. -/
def isPostFix (p : List LInstr) (outs : List (List Nat)) : Prop :=
  ∀ i, i < p.length → ∀ r, r ∈ (transfer p outs).getD i [] → r ∈ outs.getD i []

instance (p : List LInstr) (outs : List (List Nat)) :
    Decidable (isPostFix p outs) := by
  unfold isPostFix
  infer_instance

/-- Register `r` may be read before being overwritten along some path
from the point just before instruction `i`. -/
inductive ReadFrom (p : List LInstr) : Nat → Nat → Prop
  | uses (i r : Nat) : r ∈ (p.getD i default).uses → ReadFrom p i r
  | step (i j r : Nat) : r ∉ (p.getD i default).defs →
      j ∈ (p.getD i default).succ → ReadFrom p j r → ReadFrom p i r

/-- Concrete program for the liveness claim: instruction 0 writes register
0 and falls through to instruction 1, which reads it. -/
def exProg : List LInstr := [⟨[], [0], [1]⟩, ⟨[0], [], []⟩]

/-- Well-formedness of IR instruction references relative to the
instruction count. -/
def wfInsns (len : Nat) (l : List IRInsn) : Prop :=
  ∀ x ∈ l, x.target ≤ len ∧ (x.isBranch = false → x.target = 0)

def wfTry (len : Nat) (t : IRTry) : Prop :=
  t.startIdx ≤ len ∧ t.endIdx ≤ len ∧ (∀ p ∈ t.handlers, p.2 ≤ len) ∧
    (∀ a ∈ t.catchAll, a ≤ len)

def wfIR (m : IRMethod) : Prop :=
  wfInsns m.insns.length m.insns ∧ ∀ t ∈ m.tries, wfTry m.insns.length t

end Redex

namespace Redex

/-! ## Supporting lemmas -/

lemma eInsn_width_pos (e : EInsn) : 0 < e.width := by
  unfold EInsn.width
  cases e.isBranch <;> cases hb : e.bw <;> simp [BW.units, hb]

lemma irInsn_width_pos (x : IRInsn) : 0 < x.width := by
  unfold IRInsn.width
  cases x.isBranch <;> cases hb : x.bw <;> simp [BW.units, hb]

lemma addrToIdx_le (l : List EInsn) (a : Int) (i : Nat)
    (h : addrToIdx l a = some i) : i ≤ l.length := by
  induction l generalizing a i with
  | nil =>
    unfold addrToIdx at h
    by_cases ha : a = 0 <;> simp [ha] at h
    omega
  | cons e rest ih =>
    unfold addrToIdx at h
    by_cases ha : a = 0
    · simp [ha] at h
      omega
    · simp only [ha, if_false, Option.map_eq_some'] at h
      obtain ⟨j, hj, hij⟩ := h
      have := ih _ _ hj
      simp only [List.length_cons]
      omega

lemma eAddr_cons_succ (e : EInsn) (rest : List EInsn) (j : Nat) :
    eAddr (e :: rest) (j + 1) = e.width + eAddr rest j := by
  simp [eAddr, List.take_succ_cons]

lemma addrToIdx_eAddr (l : List EInsn) (i : Nat) (hi : i ≤ l.length) :
    addrToIdx l ((eAddr l i : Int)) = some i := by
  induction l generalizing i with
  | nil =>
    have : i = 0 := by simpa using hi
    subst this
    simp [addrToIdx, eAddr]
  | cons e rest ih =>
    cases i with
    | zero => simp [addrToIdx, eAddr]
    | succ j =>
      have hj : j ≤ rest.length := by simpa using hi
      rw [eAddr_cons_succ]
      unfold addrToIdx
      have hpos : 0 < e.width + eAddr rest j :=
        Nat.lt_of_lt_of_le (eInsn_width_pos e) (Nat.le_add_right _ _)
      have hne : ((e.width + eAddr rest j : Nat) : Int) ≠ 0 := by
        exact_mod_cast hpos.ne'
      rw [if_neg hne]
      have harith : ((e.width + eAddr rest j : Nat) : Int) - (e.width : Int)
          = ((eAddr rest j : Nat) : Int) := by push_cast; ring
      rw [harith, ih j hj]
      rfl

lemma getD_set_self (l : List IRInsn) (i : Nat) (y : IRInsn)
    (hi : i < l.length) : (l.set i y).getD i default = y := by
  induction l generalizing i with
  | nil => simp at hi
  | cons a rest ih =>
    cases i with
    | zero => rfl
    | succ j => exact ih j (by simpa using hi)

lemma getD_set_ne (l : List IRInsn) (i j : Nat) (y : IRInsn) (h : j ≠ i) :
    (l.set i y).getD j default = l.getD j default := by
  induction l generalizing i j with
  | nil => rfl
  | cons a rest ih =>
    cases i with
    | zero =>
      cases j with
      | zero => exact absurd rfl h
      | succ j' => rfl
    | succ i' =>
      cases j with
      | zero => rfl
      | succ j' => exact ih i' j' (fun hc => h (by omega))

lemma map_set_eq_of_eq {β : Type} (f : IRInsn → β) (l : List IRInsn) (i : Nat)
    (y : IRInsn) (h : f y = f (l.getD i default)) :
    (l.set i y).map f = l.map f := by
  induction l generalizing i with
  | nil => rfl
  | cons a rest ih =>
    cases i with
    | zero => simpa using congrArg (· :: rest.map f) h
    | succ j => simpa using ih j h

lemma countP_set_lt (p : IRInsn → Bool) :
    ∀ (l : List IRInsn) (i : Nat) (y : IRInsn), i < l.length →
      p (l.getD i default) = true → p y = false →
      (l.set i y).countP p < l.countP p := by
  intro l
  induction l with
  | nil =>
    intro i y hi hx hy
    simp at hi
  | cons a rest ih =>
    intro i y hi hx hy
    cases i with
    | zero =>
      have hx0 : p a = true := hx
      simp [List.countP_cons, hx0, hy]
    | succ j =>
      have hj : j < rest.length := by simpa using hi
      have hx' : p (rest.getD j default) = true := hx
      have := ih j y hj hx' hy
      simp only [List.set_cons_succ, List.countP_cons]
      omega

lemma firstBad_some (l : List IRInsn) (i : Nat) (h : firstBad l = some i) :
    i < l.length ∧ badAt l i = true := by
  unfold firstBad at h
  refine ⟨?_, List.find?_some h⟩
  have := List.mem_of_find?_eq_some h
  simpa using this

lemma badAt_narrow (l : List IRInsn) (i : Nat) (h : badAt l i = true) :
    (l.getD i default).isBranch = true ∧ (l.getD i default).bw = BW.narrow := by
  unfold badAt at h
  simp only [Bool.and_eq_true, Bool.not_eq_true'] at h
  refine ⟨h.1, ?_⟩
  cases hbw : (l.getD i default).bw with
  | narrow => rfl
  | wide =>
    rw [hbw] at h
    simp [fits] at h

lemma try_sync_of_firstBad_none (m : IRMethod) (h : firstBad m.insns = none) :
    try_sync m = (true, m) := by
  unfold try_sync
  rw [h]

lemma try_sync_of_firstBad_some (m : IRMethod) (i : Nat)
    (h : firstBad m.insns = some i) :
    try_sync m
      = (false, ⟨m.insns.set i (widen (m.insns.getD i default)), m.tries⟩) := by
  unfold try_sync
  rw [h]

lemma try_sync_true_eq (m m' : IRMethod) (h : try_sync m = (true, m')) :
    m' = m ∧ firstBad m.insns = none := by
  unfold try_sync at h
  cases hfb : firstBad m.insns with
  | some i =>
    rw [hfb] at h
    exact absurd ((Prod.mk.injEq _ _ _ _).mp h).1 (by simp)
  | none =>
    rw [hfb] at h
    exact ⟨((Prod.mk.injEq _ _ _ _).mp h).2.symm, rfl⟩

lemma skel_widen (x : IRInsn) : skel (widen x) = skel x := rfl

lemma try_sync_false_progress (m m' : IRMethod)
    (h : try_sync m = (false, m')) :
    m'.insns.length = m.insns.length ∧
    m'.insns.map skel = m.insns.map skel ∧
    m'.tries = m.tries ∧
    (∀ j, ((m.insns.getD j default).bw).units
      ≤ ((m'.insns.getD j default).bw).units) ∧
    narrowCount m' < narrowCount m := by
  cases hfb : firstBad m.insns with
  | none =>
    rw [try_sync_of_firstBad_none m hfb] at h
    simp at h
  | some i =>
    rw [try_sync_of_firstBad_some m i hfb] at h
    obtain ⟨hlen, hbad⟩ := firstBad_some _ _ hfb
    obtain ⟨hbr, hnar⟩ := badAt_narrow _ _ hbad
    have hm' : m' = ⟨m.insns.set i (widen (m.insns.getD i default)), m.tries⟩ :=
      ((Prod.mk.injEq _ _ _ _).mp h).2.symm
    subst hm'
    refine ⟨by simp, map_set_eq_of_eq skel _ i _ (skel_widen _), rfl, ?_, ?_⟩
    · intro j
      by_cases hj : j = i
      · subst hj
        rw [getD_set_self _ _ _ hlen, hnar]
        simp [widen, BW.units]
      · rw [getD_set_ne _ _ _ _ hj]
    · unfold narrowCount
      refine countP_set_lt _ _ _ _ hlen ?_ ?_
      · show ((m.insns.getD i default).isBranch
          && ((m.insns.getD i default).bw == BW.narrow)) = true
        rw [hbr, hnar]
        rfl
      · show ((widen (m.insns.getD i default)).isBranch
          && ((widen (m.insns.getD i default)).bw == BW.narrow)) = false
        simp [widen]

lemma syncLoop_spec : ∀ (n : Nat) (m : IRMethod), narrowCount m < n →
    ∃ mf, syncLoop n m = some mf ∧ firstBad mf.insns = none ∧
      mf.insns.map skel = m.insns.map skel ∧ mf.tries = m.tries ∧
      mf.insns.length = m.insns.length := by
  intro n
  induction n with
  | zero => intro m h; omega
  | succ k ih =>
    intro m hm
    cases hts : try_sync m with
    | mk b m' =>
      cases b with
      | true =>
        obtain ⟨hm', hfb⟩ := try_sync_true_eq m m' hts
        subst hm'
        exact ⟨m', by simp [syncLoop, hts], hfb, rfl, rfl, rfl⟩
      | false =>
        obtain ⟨hlen, hskel, htries, hw, hcount⟩ :=
          try_sync_false_progress m m' hts
        have hm' : narrowCount m' < k := by omega
        obtain ⟨mf, hloop, hfb, hskel', htries', hlen'⟩ := ih m' hm'
        refine ⟨mf, ?_, hfb, hskel'.trans hskel, htries'.trans htries,
          hlen'.trans hlen⟩
        simp [syncLoop, hts, hloop]

lemma emitInsn_width (lm : List IRInsn) (i : Nat) (x : IRInsn) :
    (emitInsn lm i x).width = x.width := rfl

lemma emitInsns_widths (lm : List IRInsn) :
    ∀ (sub : List IRInsn) (i : Nat),
      (emitInsns lm i sub).map EInsn.width = sub.map IRInsn.width := by
  intro sub
  induction sub with
  | nil => intro i; rfl
  | cons x rest ih =>
    intro i
    show (emitInsn lm i x).width :: (emitInsns lm (i + 1) rest).map EInsn.width
      = x.width :: rest.map IRInsn.width
    rw [emitInsn_width, ih (i + 1)]

lemma emitInsns_ops (lm : List IRInsn) :
    ∀ (sub : List IRInsn) (i : Nat),
      (emitInsns lm i sub).map EInsn.op = sub.map IRInsn.op := by
  intro sub
  induction sub with
  | nil => intro i; rfl
  | cons x rest ih =>
    intro i
    show (emitInsn lm i x).op :: (emitInsns lm (i + 1) rest).map EInsn.op
      = x.op :: rest.map IRInsn.op
    rw [ih (i + 1)]
    rfl

lemma emitInsns_length (lm : List IRInsn) (sub : List IRInsn) (i : Nat) :
    (emitInsns lm i sub).length = sub.length := by
  have h := congrArg List.length (emitInsns_widths lm sub i)
  simpa using h

lemma eAddr_emit (lm : List IRInsn) (k : Nat) :
    eAddr (emitInsns lm 0 lm) k = irAddr lm k := by
  unfold eAddr irAddr
  rw [List.map_take, List.map_take, emitInsns_widths]

lemma addrToIdx_emit (lm : List IRInsn) (j : Nat) (hj : j ≤ lm.length) :
    addrToIdx (emitInsns lm 0 lm) ((irAddr lm j : Int)) = some j := by
  have hlen : (emitInsns lm 0 lm).length = lm.length := emitInsns_length lm lm 0
  have h := addrToIdx_eAddr (emitInsns lm 0 lm) j (by omega)
  rwa [eAddr_emit] at h

lemma balloonInsn_emitInsn (lm : List IRInsn) (i : Nat) (x : IRInsn)
    (ht : x.target ≤ lm.length) (hnb : x.isBranch = false → x.target = 0) :
    balloonInsn (emitInsns lm 0 lm) i (emitInsn lm i x) = some x := by
  obtain ⟨op, base, br, bw, tg⟩ := x
  cases br with
  | false =>
    have h0 : tg = 0 := hnb rfl
    subst h0
    rfl
  | true =>
    show (addrToIdx (emitInsns lm 0 lm)
        ((eAddr (emitInsns lm 0 lm) i : Int)
          + reqOff lm i ⟨op, base, true, bw, tg⟩)).map
        (fun t => (⟨op, base, true, bw, t⟩ : IRInsn))
      = some ⟨op, base, true, bw, tg⟩
    rw [eAddr_emit]
    have harith : ((irAddr lm i : Int) + reqOff lm i ⟨op, base, true, bw, tg⟩)
        = ((irAddr lm tg : Nat) : Int) := by
      unfold reqOff
      push_cast
      ring
    rw [harith, addrToIdx_emit lm tg ht]
    rfl

lemma balloonInsns_emit (lm : List IRInsn) :
    ∀ (sub : List IRInsn) (i : Nat),
      (∀ x ∈ sub, x.target ≤ lm.length ∧ (x.isBranch = false → x.target = 0)) →
      balloonInsns (emitInsns lm 0 lm) i (emitInsns lm i sub) = some sub := by
  intro sub
  induction sub with
  | nil => intro i h; rfl
  | cons x rest ih =>
    intro i h
    have hx := h x (List.mem_cons_self x rest)
    have h1 := balloonInsn_emitInsn lm i x hx.1 hx.2
    have h2 := ih (i + 1) (fun y hy => h y (List.mem_cons_of_mem x hy))
    simp [emitInsns, balloonInsns, h1, h2]

lemma resolveHandlers_emit (lm : List IRInsn) :
    ∀ (hs : List (Nat × Nat)), (∀ p ∈ hs, p.2 ≤ lm.length) →
      resolveHandlers (emitInsns lm 0 lm)
        (hs.map (fun p => (p.1, irAddr lm p.2))) = some hs := by
  intro hs
  induction hs with
  | nil => intro h; rfl
  | cons p rest ih =>
    intro h
    have hp : p.2 ≤ lm.length := h p (List.mem_cons_self p rest)
    have h1 := addrToIdx_emit lm p.2 hp
    have h2 := ih (fun q hq => h q (List.mem_cons_of_mem p hq))
    simp [resolveHandlers, h1, h2]

lemma balloonTry_emitTry (lm : List IRInsn) (t : IRTry)
    (h : wfTry lm.length t) :
    balloonTry (emitInsns lm 0 lm) (emitTry lm t) = some t := by
  obtain ⟨s, en, hs, ca⟩ := t
  obtain ⟨h1, h2, h3, h4⟩ := h
  cases ca with
  | none =>
    simp [balloonTry, emitTry, addrToIdx_emit lm s h1, addrToIdx_emit lm en h2,
      resolveHandlers_emit lm hs h3]
  | some a =>
    have ha : a ≤ lm.length := h4 a rfl
    simp [balloonTry, emitTry, addrToIdx_emit lm s h1, addrToIdx_emit lm en h2,
      resolveHandlers_emit lm hs h3, addrToIdx_emit lm a ha]

lemma balloonTries_emit (lm : List IRInsn) :
    ∀ (ts : List IRTry), (∀ t ∈ ts, wfTry lm.length t) →
      balloonTries (emitInsns lm 0 lm) (ts.map (emitTry lm)) = some ts := by
  intro ts
  induction ts with
  | nil => intro h; rfl
  | cons t rest ih =>
    intro h
    have h1 := balloonTry_emitTry lm t (h t (List.mem_cons_self t rest))
    have h2 := ih (fun u hu => h u (List.mem_cons_of_mem t hu))
    simp [balloonTries, h1, h2]

lemma balloonInsn_spec (l : List EInsn) (i : Nat) (e : EInsn) (x : IRInsn)
    (h : balloonInsn l i e = some x) :
    x.op = e.op ∧ x.target ≤ l.length ∧ (x.isBranch = false → x.target = 0) := by
  unfold balloonInsn at h
  by_cases hbr : e.isBranch = true
  · rw [if_pos hbr] at h
    rw [Option.map_eq_some'] at h
    obtain ⟨t, hres, hx⟩ := h
    subst hx
    exact ⟨rfl, addrToIdx_le _ _ _ hres, fun hf => by simp at hf⟩
  · rw [if_neg hbr] at h
    have hx : (⟨e.op, e.base, false, e.bw, 0⟩ : IRInsn) = x := by
      simpa using h
    subst hx
    exact ⟨rfl, Nat.zero_le _, fun _ => rfl⟩

lemma balloonInsns_spec (l : List EInsn) :
    ∀ (sub : List EInsn) (i : Nat) (xs : List IRInsn),
      balloonInsns l i sub = some xs →
      xs.length = sub.length ∧ xs.map IRInsn.op = sub.map EInsn.op ∧
      ∀ x ∈ xs, x.target ≤ l.length ∧ (x.isBranch = false → x.target = 0) := by
  intro sub
  induction sub with
  | nil =>
    intro i xs h
    have hx : xs = [] := by simpa [balloonInsns] using h.symm
    subst hx
    exact ⟨rfl, rfl, by simp⟩
  | cons e rest ih =>
    intro i xs h
    unfold balloonInsns at h
    cases hx : balloonInsn l i e with
    | none =>
      rw [hx] at h
      simp at h
    | some x =>
      rw [hx] at h
      cases hxs' : balloonInsns l (i + 1) rest with
      | none =>
        rw [hxs'] at h
        simp at h
      | some xs' =>
        rw [hxs'] at h
        simp at h
        subst h
        obtain ⟨hop, htg, hnb⟩ := balloonInsn_spec l i e x hx
        obtain ⟨hlen, hops, hwf⟩ := ih (i + 1) xs' hxs'
        refine ⟨by simp [hlen], ?_, ?_⟩
        · show x.op :: xs'.map IRInsn.op = e.op :: rest.map EInsn.op
          rw [hop, hops]
        · intro y hy
          rcases List.mem_cons.mp hy with hy | hy
          · subst hy
            exact ⟨htg, hnb⟩
          · exact hwf y hy

lemma resolveHandlers_wf (l : List EInsn) :
    ∀ (hs0 : List (Nat × Nat)) (hs : List (Nat × Nat)),
      resolveHandlers l hs0 = some hs → ∀ p ∈ hs, p.2 ≤ l.length := by
  intro hs0
  induction hs0 with
  | nil =>
    intro hs h
    have hx : hs = [] := by simpa [resolveHandlers] using h.symm
    subst hx
    simp
  | cons p rest ih =>
    intro hs h
    unfold resolveHandlers at h
    cases hx : addrToIdx l ((p.2 : Nat) : Int) with
    | none =>
      rw [hx] at h
      simp at h
    | some hh =>
      rw [hx] at h
      cases hrest : resolveHandlers l rest with
      | none =>
        rw [hrest] at h
        simp at h
      | some hs' =>
        rw [hrest] at h
        simp at h
        subst h
        intro q hq
        rcases List.mem_cons.mp hq with hq | hq
        · subst hq
          exact addrToIdx_le _ _ _ hx
        · exact ih hs' hrest q hq

lemma balloonTry_wf (l : List EInsn) (t : ETry) (it : IRTry)
    (h : balloonTry l t = some it) : wfTry l.length it := by
  unfold balloonTry at h
  cases h1 : addrToIdx l ((t.startAddr : Nat) : Int) with
  | none =>
    rw [h1] at h
    simp at h
  | some s =>
    rw [h1] at h
    cases h2 : addrToIdx l ((t.endAddr : Nat) : Int) with
    | none =>
      rw [h2] at h
      simp at h
    | some en =>
      rw [h2] at h
      cases h3 : resolveHandlers l t.handlers with
      | none =>
        rw [h3] at h
        simp at h
      | some hs =>
        rw [h3] at h
        cases hct : t.catchAll with
        | none =>
          rw [hct] at h
          simp at h
          subst h
          refine ⟨addrToIdx_le _ _ _ h1, addrToIdx_le _ _ _ h2,
            resolveHandlers_wf l _ _ h3, ?_⟩
          intro a ha
          simp at ha
        | some a0 =>
          rw [hct] at h
          simp at h
          cases h4 : addrToIdx l ((a0 : Nat) : Int) with
          | none =>
            rw [h4] at h
            simp at h
          | some ha0 =>
            rw [h4] at h
            simp at h
            subst h
            refine ⟨addrToIdx_le _ _ _ h1, addrToIdx_le _ _ _ h2,
              resolveHandlers_wf l _ _ h3, ?_⟩
            intro a ha
            have hax : ha0 = a := by simpa using ha
            subst hax
            exact addrToIdx_le _ _ _ h4

lemma balloonTries_wf (l : List EInsn) :
    ∀ (ts : List ETry) (its : List IRTry), balloonTries l ts = some its →
      ∀ it ∈ its, wfTry l.length it := by
  intro ts
  induction ts with
  | nil =>
    intro its h
    have hx : its = [] := by simpa [balloonTries] using h.symm
    subst hx
    simp
  | cons t rest ih =>
    intro its h
    unfold balloonTries at h
    cases hit : balloonTry l t with
    | none =>
      rw [hit] at h
      simp at h
    | some t1 =>
      rw [hit] at h
      cases hits' : balloonTries l rest with
      | none =>
        rw [hits'] at h
        simp at h
      | some ts1 =>
        rw [hits'] at h
        simp at h
        subst h
        intro u hu
        rcases List.mem_cons.mp hu with hu | hu
        · subst hu
          exact balloonTry_wf l t _ hit
        · exact ih ts1 hits' u hu

lemma balloon_spec (M : EncodedMethod) (ir : IRMethod)
    (h : balloon M = some ir) :
    wfIR ir ∧ ir.insns.length = M.insns.length ∧
    ir.insns.map IRInsn.op = M.insns.map EInsn.op := by
  unfold balloon at h
  cases hxs : balloonInsns M.insns 0 M.insns with
  | none =>
    rw [hxs] at h
    simp at h
  | some xs =>
    rw [hxs] at h
    cases hts : balloonTries M.insns M.tries with
    | none =>
      rw [hts] at h
      simp at h
    | some ts =>
      rw [hts] at h
      simp at h
      subst h
      obtain ⟨hlen, hops, hwf⟩ := balloonInsns_spec M.insns M.insns 0 xs hxs
      refine ⟨⟨?_, ?_⟩, hlen, hops⟩
      · show wfInsns xs.length xs
        rw [hlen]
        exact hwf
      · intro t ht
        show wfTry xs.length t
        rw [hlen]
        exact balloonTries_wf M.insns M.tries ts hts t ht

lemma wfInsns_of_skel_eq (n : Nat) (a b : List IRInsn)
    (hs : b.map skel = a.map skel) (h : wfInsns n a) : wfInsns n b := by
  intro x hx
  have hmem : skel x ∈ b.map skel := List.mem_map_of_mem skel hx
  rw [hs] at hmem
  obtain ⟨y, hy, hxy⟩ := List.mem_map.mp hmem
  obtain ⟨h1, h2⟩ := h y hy
  have ht : y.target = x.target := congrArg (fun p => p.2.2.2) hxy
  have hb : y.isBranch = x.isBranch := congrArg (fun p => p.2.2.1) hxy
  refine ⟨?_, ?_⟩
  · rw [← ht]
    exact h1
  · intro hf
    rw [← ht]
    exact h2 (by rw [hb, hf])

lemma map_op_of_skel_eq (a b : List IRInsn)
    (h : a.map skel = b.map skel) : a.map IRInsn.op = b.map IRInsn.op := by
  have h2 := congrArg (List.map (fun p : Nat × Nat × Bool × Nat => p.1)) h
  simpa [List.map_map, skel, Function.comp] using h2

lemma balloon_eq_of (M : EncodedMethod) (xs : List IRInsn) (ts : List IRTry)
    (hx : balloonInsns M.insns 0 M.insns = some xs)
    (ht : balloonTries M.insns M.tries = some ts) :
    balloon M = some ⟨xs, ts⟩ := by
  unfold balloon
  rw [hx, ht]

lemma balloon_emit (m : IRMethod) (h : wfIR m) : balloon (emit m) = some m := by
  obtain ⟨h1, h2⟩ := h
  have e1 : balloonInsns (emit m).insns 0 (emit m).insns = some m.insns :=
    balloonInsns_emit m.insns m.insns 0 h1
  have e2 : balloonTries (emit m).insns (emit m).tries = some m.tries :=
    balloonTries_emit m.insns m.tries h2
  exact balloon_eq_of (emit m) m.insns m.tries e1 e2

end Redex

namespace Redex

lemma lookupCache_get_method_transform (m m' : Nat) (s : CacheState) (t : Nat)
    (h : lookupCache m' s.cache = some t) :
    lookupCache m' (get_method_transform m s).2.cache = some t := by
  unfold get_method_transform
  cases hm : lookupCache m s.cache with
  | some u => simpa using h
  | none =>
    simp only [lookupCache]
    by_cases hmm : m = m'
    · subst hmm
      rw [hm] at h
      exact absurd h (by simp)
    · simp [hmm, h]

lemma lookupCache_runGets (ms : List Nat) (m' : Nat) (s : CacheState) (t : Nat)
    (h : lookupCache m' s.cache = some t) :
    lookupCache m' (runGets ms s).cache = some t := by
  induction ms generalizing s with
  | nil => simpa [runGets] using h
  | cons m ms ih =>
    simp only [runGets]
    exact ih _ (lookupCache_get_method_transform m m' s t h)

lemma get_method_transform_hit (m : Nat) (s : CacheState) (t : Nat)
    (h : lookupCache m s.cache = some t) :
    get_method_transform m s = (t, s) := by
  unfold get_method_transform
  rw [h]

lemma get_method_transform_cached (m : Nat) (s : CacheState) :
    lookupCache m (get_method_transform m s).2.cache
      = some (get_method_transform m s).1 := by
  unfold get_method_transform
  cases hm : lookupCache m s.cache with
  | some t => simpa using hm
  | none => simp [lookupCache]

lemma posOf_getD (params : List Nat) (k : Nat) (hnd : params.Nodup)
    (hk : k < params.length) : posOf (params.getD k 0) params = some k := by
  induction params generalizing k with
  | nil => simp at hk
  | cons p ps ih =>
    cases k with
    | zero => simp [posOf]
    | succ k =>
      have hk' : k < ps.length := by simpa using hk
      have hmem : ps.getD k 0 ∈ ps := by
        rw [List.getD_eq_getElem _ _ hk']
        exact List.getElem_mem hk'
      have hne : ¬ p = ps.getD k 0 := by
        intro h
        exact (List.nodup_cons.mp hnd).1 (h ▸ hmem)
      have hstep : (p :: ps).getD (k + 1) 0 = ps.getD k 0 := rfl
      rw [hstep]
      simp only [posOf, hne, if_false]
      rw [ih k (List.nodup_cons.mp hnd).2 hk']
      rfl

lemma splitGo_flatten :
    ∀ (rest cur : List (Nat × MItem)) (prev : MItem),
      (splitGo cur prev rest).flatten = cur.reverse ++ rest := by
  intro rest
  induction rest with
  | nil =>
    intro cur prev
    simp [splitGo]
  | cons x rest ih =>
    intro cur prev
    unfold splitGo
    by_cases hs : startsB prev x.2 = true
    · rw [if_pos hs]
      simp [ih]
    · rw [if_neg hs]
      rw [ih]
      simp

lemma splitBlocks_flatten (xs : List (Nat × MItem)) :
    (splitBlocks xs).flatten = xs := by
  cases xs with
  | nil => rfl
  | cons x rest => simpa using splitGo_flatten rest [x] x.2

lemma splitGo_ne_nil :
    ∀ (rest cur : List (Nat × MItem)) (prev : MItem), cur ≠ [] →
      ∀ b ∈ splitGo cur prev rest, b ≠ [] := by
  intro rest
  induction rest with
  | nil =>
    intro cur prev hcur b hb
    simp [splitGo] at hb
    subst hb
    simpa using hcur
  | cons x rest ih =>
    intro cur prev hcur b hb
    unfold splitGo at hb
    by_cases hs : startsB prev x.2 = true
    · rw [if_pos hs] at hb
      rcases List.mem_cons.mp hb with hb | hb
      · subst hb
        simpa using hcur
      · exact ih [x] x.2 (by simp) b hb
    · rw [if_neg hs] at hb
      exact ih (x :: cur) x.2 (by simp) b hb

lemma buildBlocks_flatten (l : List MItem) :
    (buildBlocks l).flatten = l.enum :=
  splitBlocks_flatten l.enum

lemma buildBlocks_ne_nil (l : List MItem) :
    ∀ b ∈ buildBlocks l, b ≠ [] := by
  unfold buildBlocks splitBlocks
  cases henum : l.enum with
  | nil => simp
  | cons x rest => exact splitGo_ne_nil rest [x] x.2 (by simp)

lemma enum_nodup (l : List MItem) : l.enum.Nodup :=
  List.Nodup.of_map Prod.fst (List.nodup_enum_map_fst l)

lemma disjoint_symm_blocks : Symmetric (List.Disjoint (α := Nat × MItem)) := by
  intro a b h x hxb hxa
  exact h hxa hxb

lemma buildBlocks_mem_unique (l : List MItem) (p : Nat × MItem)
    (hp : p ∈ l.enum) : ∃! b, b ∈ buildBlocks l ∧ p ∈ b := by
  have hj : (buildBlocks l).flatten = l.enum := buildBlocks_flatten l
  have hnd : ((buildBlocks l).flatten).Nodup := by
    rw [hj]
    exact enum_nodup l
  obtain ⟨hall, hdisj⟩ := List.nodup_flatten.mp hnd
  have hpj : p ∈ (buildBlocks l).flatten := by
    rw [hj]
    exact hp
  obtain ⟨b, hb, hpb⟩ := List.mem_flatten.mp hpj
  refine ⟨b, ⟨hb, hpb⟩, ?_⟩
  rintro b' ⟨hb', hpb'⟩
  by_contra hne
  exact hdisj.forall disjoint_symm_blocks hb' hb hne hpb' hpb

lemma getD_map_range {α : Type} (n i : Nat) (f : Nat → α) (d : α)
    (h : i < n) : ((List.range n).map f).getD i d = f i := by
  rw [List.getD_eq_getElem _ _ (by simp [h])]
  simp

lemma nodup_subset_length (d e : List Nat) (hnd : d.Nodup)
    (hsub : ∀ x ∈ d, x ∈ e) : d.length ≤ e.length := by
  have h1 : d.toFinset.card = d.length := List.toFinset_card_of_nodup hnd
  have h2 : d.toFinset ⊆ e.toFinset := by
    intro x hx
    rw [List.mem_toFinset] at hx ⊢
    exact hsub x hx
  calc d.length = d.toFinset.card := h1.symm
    _ ≤ e.toFinset.card := Finset.card_le_card h2
    _ ≤ e.length := List.toFinset_card_le e

lemma mem_foldr_max (l : List Nat) (x : Nat) (hx : x ∈ l) :
    x ≤ l.foldr max 0 := by
  induction l with
  | nil => simp at hx
  | cons a rest ih =>
    rcases List.mem_cons.mp hx with h | h
    · subst h
      exact le_max_left _ _
    · exact le_trans (ih h) (le_max_right _ _)

lemma succsOf_length_le (cfg : List (List Nat)) (b : Nat) :
    (succsOf cfg b).length ≤ succBound cfg := by
  unfold succsOf succBound
  by_cases hb : b < cfg.length
  · rw [List.getD_eq_getElem _ _ hb]
    exact mem_foldr_max _ _ (List.mem_map_of_mem List.length (List.getElem_mem hb))
  · rw [List.getD_eq_default _ _ (by omega)]
    simp

lemma mem_succsOf_flatten (cfg : List (List Nat)) (b s : Nat)
    (hs : s ∈ succsOf cfg b) : s ∈ cfg.flatten := by
  unfold succsOf at hs
  by_cases hb : b < cfg.length
  · rw [List.getD_eq_getElem _ _ hb] at hs
    exact List.mem_flatten.mpr ⟨cfg[b], List.getElem_mem hb, hs⟩
  · rw [List.getD_eq_default _ _ (by omega)] at hs
    simp at hs

lemma visited_le_poBound (cfg : List (List Nat)) (root : Nat) (st : POState)
    (inv : POInv cfg root st) : st.visited.length ≤ poBound cfg := by
  have h := nodup_subset_length st.visited (root :: cfg.flatten)
    inv.visited_nodup ?_
  · have hlen : (root :: cfg.flatten).length = poBound cfg := by
      simp [poBound]
      omega
    rw [hlen] at h
    exact h
  · intro x hx
    rcases inv.visited_sub x hx with h | h
    · subst h
      exact List.mem_cons_self _ _
    · exact List.mem_cons_of_mem _ h

lemma poInit_inv (cfg : List (List Nat)) (root : Nat) :
    POInv cfg root (poInit cfg root) := by
  refine ⟨?_, ?_, ?_, ?_, ?_, ?_, ?_⟩
  · intro x
    simp [poInit, stackBlocks]
  · simp [poInit, stackBlocks]
  · simp [poInit]
  · intro x hx
    simp [poInit] at hx
    subst hx
    exact Or.inl rfl
  · intro x hx
    simp [poInit] at hx
    subst hx
    exact Relation.ReflTransGen.refl
  · intro x hx
    simp [poInit] at hx
  · intro pr hpr
    simp [poInit] at hpr
    subst hpr
    exact ⟨[], rfl, by simp⟩

lemma poStep_inv (cfg : List (List Nat)) (root : Nat) (st : POState)
    (inv : POInv cfg root st) : POInv cfg root (poStep cfg st) := by
  obtain ⟨stk, vis, outl⟩ := st
  obtain ⟨hvi, hnd, hvn, hvs, hre, hoc, hsi⟩ := inv
  cases stk with
  | nil => exact ⟨hvi, hnd, hvn, hvs, hre, hoc, hsi⟩
  | cons hd rest =>
    obtain ⟨b, ss⟩ := hd
    cases ss with
    | nil =>
      have hstep : poStep cfg ⟨(b, []) :: rest, vis, outl⟩
          = ⟨rest, vis, outl ++ [b]⟩ := rfl
      rw [hstep]
      refine ⟨?_, ?_, hvn, hvs, hre, ?_, ?_⟩
      · intro x
        show x ∈ vis ↔ x ∈ outl ++ [b] ∨ x ∈ stackBlocks rest
        have hx' : x ∈ vis ↔ x ∈ outl ∨ x ∈ b :: stackBlocks rest := hvi x
        rw [hx']
        simp only [List.mem_append, List.mem_cons, List.mem_singleton]
        tauto
      · show ((outl ++ [b]) ++ stackBlocks rest).Nodup
        rw [List.append_assoc]
        exact hnd
      · intro x hx s hs
        rcases List.mem_append.mp (show x ∈ outl ++ [b] from hx) with hx2 | hx2
        · exact hoc x hx2 s hs
        · have hxb : x = b := by simpa using hx2
          obtain ⟨pre, hpre, hprev⟩ := hsi (b, []) (List.mem_cons_self _ _)
          have hpre' : succsOf cfg b = pre ++ [] := hpre
          rw [hxb, hpre'] at hs
          exact hprev s (by simpa using hs)
      · intro pr hpr
        exact hsi pr (List.mem_cons_of_mem _ hpr)
    | cons s ss' =>
      by_cases hsv : s ∈ vis
      · have hstep : poStep cfg ⟨(b, s :: ss') :: rest, vis, outl⟩
            = ⟨(b, ss') :: rest, vis, outl⟩ := by
          show (if s ∈ vis then (⟨(b, ss') :: rest, vis, outl⟩ : POState)
            else ⟨(s, succsOf cfg s) :: (b, ss') :: rest, s :: vis, outl⟩)
            = ⟨(b, ss') :: rest, vis, outl⟩
          rw [if_pos hsv]
        rw [hstep]
        refine ⟨hvi, hnd, hvn, hvs, hre, hoc, ?_⟩
        intro pr hpr
        rcases List.mem_cons.mp hpr with hpr | hpr
        · subst hpr
          obtain ⟨pre, hpre, hprev⟩ := hsi (b, s :: ss') (List.mem_cons_self _ _)
          have hpre' : succsOf cfg b = pre ++ s :: ss' := hpre
          refine ⟨pre ++ [s], ?_, ?_⟩
          · show succsOf cfg b = (pre ++ [s]) ++ ss'
            rw [hpre', List.append_assoc]
            rfl
          · intro x hx2
            rcases List.mem_append.mp hx2 with hx2 | hx2
            · exact hprev x hx2
            · have hxs : x = s := by simpa using hx2
              subst hxs
              exact hsv
        · exact hsi pr (List.mem_cons_of_mem _ hpr)
      · have hstep : poStep cfg ⟨(b, s :: ss') :: rest, vis, outl⟩
            = ⟨(s, succsOf cfg s) :: (b, ss') :: rest, s :: vis, outl⟩ := by
          show (if s ∈ vis then (⟨(b, ss') :: rest, vis, outl⟩ : POState)
            else ⟨(s, succsOf cfg s) :: (b, ss') :: rest, s :: vis, outl⟩)
            = ⟨(s, succsOf cfg s) :: (b, ss') :: rest, s :: vis, outl⟩
          rw [if_neg hsv]
        rw [hstep]
        have hbstack : b ∈ stackBlocks ((b, s :: ss') :: rest) :=
          List.mem_cons_self _ _
        have hbvis : b ∈ vis := (hvi b).mpr (Or.inr hbstack)
        have hsucb : s ∈ succsOf cfg b := by
          obtain ⟨pre, hpre, hprev⟩ := hsi (b, s :: ss') (List.mem_cons_self _ _)
          have hpre' : succsOf cfg b = pre ++ s :: ss' := hpre
          rw [hpre']
          exact List.mem_append.mpr (Or.inr (List.mem_cons_self _ _))
        refine ⟨?_, ?_, ?_, ?_, ?_, ?_, ?_⟩
        · intro x
          have hx := hvi x
          constructor
          · intro hxv
            rcases List.mem_cons.mp hxv with h | h
            · subst h
              exact Or.inr (List.mem_cons_self _ _)
            · rcases hx.mp h with h2 | h2
              · exact Or.inl h2
              · exact Or.inr (List.mem_cons_of_mem _
                  (show x ∈ b :: stackBlocks rest from h2))
          · intro hxo
            rcases hxo with h | h
            · exact List.mem_cons_of_mem _ (hx.mpr (Or.inl h))
            · rcases List.mem_cons.mp
                (show x ∈ s :: b :: stackBlocks rest from h) with h2 | h2
              · subst h2
                exact List.mem_cons_self _ _
              · exact List.mem_cons_of_mem _ (hx.mpr (Or.inr h2))
        · have hnd0 : (outl ++ b :: stackBlocks rest).Nodup := hnd
          have hs_not : s ∉ outl ++ b :: stackBlocks rest := by
            intro hmem
            apply hsv
            rcases List.mem_append.mp hmem with h | h
            · exact (hvi s).mpr (Or.inl h)
            · exact (hvi s).mpr (Or.inr h)
          show (outl ++ s :: b :: stackBlocks rest).Nodup
          rw [List.nodup_middle]
          exact List.nodup_cons.mpr ⟨hs_not, hnd0⟩
        · exact List.nodup_cons.mpr ⟨hsv, hvn⟩
        · intro x hx
          rcases List.mem_cons.mp hx with h | h
          · subst h
            exact Or.inr (mem_succsOf_flatten cfg b x hsucb)
          · exact hvs x h
        · intro x hx
          rcases List.mem_cons.mp hx with h | h
          · subst h
            exact Relation.ReflTransGen.tail (hre b hbvis) hsucb
          · exact hre x h
        · intro x hx s2 hs2
          exact List.mem_cons_of_mem _ (hoc x hx s2 hs2)
        · intro pr hpr
          rcases List.mem_cons.mp hpr with h | h
          · subst h
            exact ⟨[], rfl, by simp⟩
          · rcases List.mem_cons.mp h with h2 | h2
            · subst h2
              obtain ⟨pre, hpre, hprev⟩ :=
                hsi (b, s :: ss') (List.mem_cons_self _ _)
              have hpre' : succsOf cfg b = pre ++ s :: ss' := hpre
              refine ⟨pre ++ [s], ?_, ?_⟩
              · show succsOf cfg b = (pre ++ [s]) ++ ss'
                rw [hpre', List.append_assoc]
                rfl
              · intro x hx2
                rcases List.mem_append.mp hx2 with hx2 | hx2
                · exact List.mem_cons_of_mem _ (hprev x hx2)
                · have hxs : x = s := by simpa using hx2
                  subst hxs
                  exact List.mem_cons_self _ _
            · obtain ⟨pre, hpre, hprev⟩ := hsi pr (List.mem_cons_of_mem _ h2)
              exact ⟨pre, hpre, fun x hx2 => List.mem_cons_of_mem _ (hprev x hx2)⟩

lemma poStep_measure (cfg : List (List Nat)) (root : Nat) (st : POState)
    (inv : POInv cfg root st) (hne : st.stack ≠ []) :
    poMeasure cfg (poStep cfg st) < poMeasure cfg st := by
  have hinv' := poStep_inv cfg root st inv
  obtain ⟨stk, vis, outl⟩ := st
  cases stk with
  | nil => exact absurd rfl hne
  | cons hd rest =>
    obtain ⟨b, ss⟩ := hd
    cases ss with
    | nil =>
      have hstep : poStep cfg ⟨(b, []) :: rest, vis, outl⟩
          = ⟨rest, vis, outl ++ [b]⟩ := rfl
      rw [hstep]
      show (2 + succBound cfg) * (poBound cfg - vis.length) + stackWeight rest
        < (2 + succBound cfg) * (poBound cfg - vis.length)
          + stackWeight ((b, ([] : List Nat)) :: rest)
      simp only [stackWeight, List.map_cons, List.sum_cons, List.length_nil]
      generalize (2 + succBound cfg) * (poBound cfg - vis.length) = A
      omega
    | cons s ss' =>
      by_cases hsv : s ∈ vis
      · have hstep : poStep cfg ⟨(b, s :: ss') :: rest, vis, outl⟩
            = ⟨(b, ss') :: rest, vis, outl⟩ := by
          show (if s ∈ vis then (⟨(b, ss') :: rest, vis, outl⟩ : POState)
            else ⟨(s, succsOf cfg s) :: (b, ss') :: rest, s :: vis, outl⟩)
            = ⟨(b, ss') :: rest, vis, outl⟩
          rw [if_pos hsv]
        rw [hstep]
        show (2 + succBound cfg) * (poBound cfg - vis.length)
            + stackWeight ((b, ss') :: rest)
          < (2 + succBound cfg) * (poBound cfg - vis.length)
            + stackWeight ((b, s :: ss') :: rest)
        simp only [stackWeight, List.map_cons, List.sum_cons, List.length_cons]
        generalize (2 + succBound cfg) * (poBound cfg - vis.length) = A
        omega
      · have hstep : poStep cfg ⟨(b, s :: ss') :: rest, vis, outl⟩
            = ⟨(s, succsOf cfg s) :: (b, ss') :: rest, s :: vis, outl⟩ := by
          show (if s ∈ vis then (⟨(b, ss') :: rest, vis, outl⟩ : POState)
            else ⟨(s, succsOf cfg s) :: (b, ss') :: rest, s :: vis, outl⟩)
            = ⟨(s, succsOf cfg s) :: (b, ss') :: rest, s :: vis, outl⟩
          rw [if_neg hsv]
        rw [hstep] at hinv'
        rw [hstep]
        have hslen : (succsOf cfg s).length ≤ succBound cfg :=
          succsOf_length_le cfg s
        have hvb := visited_le_poBound cfg root _ hinv'
        have hvb' : vis.length + 1 ≤ poBound cfg := by simpa using hvb
        show (2 + succBound cfg) * (poBound cfg - (s :: vis).length)
            + stackWeight ((s, succsOf cfg s) :: (b, ss') :: rest)
          < (2 + succBound cfg) * (poBound cfg - vis.length)
            + stackWeight ((b, s :: ss') :: rest)
        simp only [stackWeight, List.map_cons, List.sum_cons, List.length_cons]
        have hBv : poBound cfg - vis.length
            = (poBound cfg - (vis.length + 1)) + 1 := by omega
        rw [hBv, Nat.mul_add, Nat.mul_one]
        generalize (2 + succBound cfg) * (poBound cfg - (vis.length + 1)) = A
        omega

lemma poStep_nil (cfg : List (List Nat)) (st : POState) (h : st.stack = []) :
    poStep cfg st = st := by
  obtain ⟨stk, vis, outl⟩ := st
  have h' : stk = [] := h
  subst h'
  rfl

lemma poRun_nil (cfg : List (List Nat)) :
    ∀ (n : Nat) (st : POState), st.stack = [] → poRun cfg n st = st := by
  intro n
  induction n with
  | zero => intro st h; rfl
  | succ k ih =>
    intro st h
    show poRun cfg k (poStep cfg st) = st
    rw [poStep_nil cfg st h]
    exact ih st h

lemma poRun_inv (cfg : List (List Nat)) (root : Nat) :
    ∀ (n : Nat) (st : POState), POInv cfg root st →
      POInv cfg root (poRun cfg n st) := by
  intro n
  induction n with
  | zero => intro st inv; exact inv
  | succ k ih =>
    intro st inv
    exact ih (poStep cfg st) (poStep_inv cfg root st inv)

lemma poRun_empties (cfg : List (List Nat)) (root : Nat) :
    ∀ (n : Nat) (st : POState), POInv cfg root st → poMeasure cfg st ≤ n →
      (poRun cfg n st).stack = [] := by
  intro n
  induction n with
  | zero =>
    intro st inv hm
    cases hst : st.stack with
    | nil => exact hst
    | cons hd rest =>
      exfalso
      obtain ⟨b, ss⟩ := hd
      have hw : 1 ≤ stackWeight st.stack := by
        rw [hst]
        show 1 ≤ (List.map (fun p => 1 + p.2.length) ((b, ss) :: rest)).sum
        simp only [List.map_cons, List.sum_cons]
        omega
      unfold poMeasure at hm
      generalize (2 + succBound cfg) * (poBound cfg - st.visited.length) = A at hm
      omega
  | succ k ih =>
    intro st inv hm
    cases hst : st.stack with
    | nil =>
      rw [poRun_nil cfg (k + 1) st hst]
      exact hst
    | cons hd rest =>
      have hne : st.stack ≠ [] := by
        rw [hst]
        simp
      have hlt := poStep_measure cfg root st inv hne
      have hm' : poMeasure cfg (poStep cfg st) ≤ k := by omega
      show (poRun cfg k (poStep cfg st)).stack = []
      exact ih (poStep cfg st) (poStep_inv cfg root st inv) hm'

lemma poStep_visited_mono (cfg : List (List Nat)) (st : POState) (x : Nat)
    (hx : x ∈ st.visited) : x ∈ (poStep cfg st).visited := by
  obtain ⟨stk, vis, outl⟩ := st
  cases stk with
  | nil => exact hx
  | cons hd rest =>
    obtain ⟨b, ss⟩ := hd
    cases ss with
    | nil => exact hx
    | cons s ss' =>
      by_cases hsv : s ∈ vis
      · show x ∈ (if s ∈ vis then (⟨(b, ss') :: rest, vis, outl⟩ : POState)
          else ⟨(s, succsOf cfg s) :: (b, ss') :: rest, s :: vis, outl⟩).visited
        rw [if_pos hsv]
        exact hx
      · show x ∈ (if s ∈ vis then (⟨(b, ss') :: rest, vis, outl⟩ : POState)
          else ⟨(s, succsOf cfg s) :: (b, ss') :: rest, s :: vis, outl⟩).visited
        rw [if_neg hsv]
        exact List.mem_cons_of_mem _ hx

lemma poRun_visited_mono (cfg : List (List Nat)) :
    ∀ (n : Nat) (st : POState) (x : Nat), x ∈ st.visited →
      x ∈ (poRun cfg n st).visited := by
  intro n
  induction n with
  | zero => intro st x hx; exact hx
  | succ k ih =>
    intro st x hx
    exact ih (poStep cfg st) x (poStep_visited_mono cfg st x hx)

lemma mem_unionMap (f : Nat → List Nat) (r : Nat) :
    ∀ (l : List Nat), r ∈ unionMap f l ↔ ∃ j ∈ l, r ∈ f j := by
  intro l
  induction l with
  | nil => simp [unionMap]
  | cons j rest ih =>
    simp only [unionMap, List.mem_append, ih, List.mem_cons]
    constructor
    · rintro (h | ⟨k, hk, hr⟩)
      · exact ⟨j, Or.inl rfl, h⟩
      · exact ⟨k, Or.inr hk, hr⟩
    · rintro ⟨k, hk | hk, hr⟩
      · subst hk
        exact Or.inl hr
      · exact Or.inr ⟨k, hk, hr⟩

lemma transfer_getD (p : List LInstr) (outs : List (List Nat)) (i : Nat)
    (hi : i < p.length) :
    (transfer p outs).getD i []
      = unionMap (liveIn p outs) (p.getD i default).succ :=
  getD_map_range _ _ _ _ hi

lemma getD_mem_prog (p : List LInstr) (i : Nat) (hi : i < p.length) :
    p.getD i default ∈ p := by
  rw [List.getD_eq_getElem _ _ hi]
  exact List.getElem_mem hi

lemma readFrom_mem_liveIn (p : List LInstr) (outs : List (List Nat))
    (hwf : ∀ I ∈ p, ∀ j ∈ I.succ, j < p.length)
    (hpf : isPostFix p outs) :
    ∀ i r, ReadFrom p i r → i < p.length → r ∈ liveIn p outs i := by
  intro i r h
  induction h with
  | uses i r hr =>
    intro hi
    exact List.mem_append.mpr (Or.inl hr)
  | step i j r hnd hsucc hrec ih =>
    intro hi
    have hj : j < p.length := hwf _ (getD_mem_prog p i hi) j hsucc
    have hlj : r ∈ liveIn p outs j := ih hj
    have htr : r ∈ (transfer p outs).getD i [] := by
      rw [transfer_getD p outs i hi]
      exact (mem_unionMap _ _ _).mpr ⟨j, hsucc, hlj⟩
    have hout : r ∈ outs.getD i [] := hpf i hi r htr
    exact List.mem_append.mpr
      (Or.inr (List.mem_filter.mpr ⟨hout, decide_eq_true hnd⟩))

end Redex

/-! # Claim theorems -/

/-- C9: liveness is conservative.  For a stable solver assignment, every
register actually read before being overwritten along any path from the
point after instruction `I` (that is, from some successor `j` of `I`) is
contained in `live_out` after `I`; the containment is one-directional, so
over-approximation is permitted. -/
theorem Redex.live_out_conservative (p : List Redex.LInstr)
    (fuel i j r : Nat)
    (hwf : ∀ I ∈ p, ∀ k ∈ I.succ, k < p.length)
    (hpf : Redex.isPostFix p (Redex.live_out p fuel))
    (hi : i < p.length)
    (hj : j ∈ (p.getD i default).succ)
    (hr : Redex.ReadFrom p j r) :
    r ∈ (Redex.live_out p fuel).getD i [] := by
  have hjlen : j < p.length := hwf _ (Redex.getD_mem_prog p i hi) j hj
  have hlive := Redex.readFrom_mem_liveIn p (Redex.live_out p fuel) hwf hpf
    j r hr hjlen
  have htr : r ∈ (Redex.transfer p (Redex.live_out p fuel)).getD i [] := by
    rw [Redex.transfer_getD p (Redex.live_out p fuel) i hi]
    exact (Redex.mem_unionMap _ _ _).mpr ⟨j, hj, hlive⟩
  exact hpf i hi r htr

/-- Witness for C9: in the concrete program, register 0 is read by
instruction 1 before being overwritten, and the stable two-pass solve
reports it live after instruction 0. -/
theorem Redex.live_out_conservative_witness :
    Redex.ReadFrom Redex.exProg 1 0 ∧
      0 ∈ (Redex.live_out Redex.exProg 2).getD 0 [] := by
  have hr : Redex.ReadFrom Redex.exProg 1 0 :=
    Redex.ReadFrom.uses 1 0 (by decide)
  exact ⟨hr, Redex.live_out_conservative Redex.exProg 2 0 1 0 (by decide)
    (by decide) (by decide) (by decide) hr⟩

/-- C10: constructing a `TryEntry` with a null catch-entry reference aborts
(no node is produced and no recoverable error is returned), while a non-null
argument always succeeds and the constructed node stores exactly that
non-null reference. -/
theorem Redex.tryEntry_null_catch_aborts (t : Redex.TryEntryType) (c : Nat) :
    Redex.TryEntry.make t none = none ∧
    ∃ e : Redex.TryEntry, Redex.TryEntry.make t (some c) = some e ∧
      e.catch_start = c :=
  ⟨rfl, ⟨⟨t, c⟩, rfl, rfl⟩⟩

/-- C5: the blocks `build_cfg` produces exactly partition the node
sequence — concatenated in id order they are precisely the indexed node
sequence, no block is empty, and every node lies in exactly one block —
and the edge relation is symmetric: block `j` is in block `i`'s successor
list iff `i` is in `j`'s predecessor list. -/
theorem Redex.build_cfg_partition_symmetric (l : List Redex.MItem) :
    ((Redex.build_cfg l).blocks).flatten = l.enum ∧
    (∀ b ∈ (Redex.build_cfg l).blocks, b ≠ []) ∧
    (∀ p ∈ l.enum, ∃! b, b ∈ (Redex.build_cfg l).blocks ∧ p ∈ b) ∧
    ∀ i j, i < (Redex.build_cfg l).blocks.length →
      j < (Redex.build_cfg l).blocks.length →
      (j ∈ ((Redex.build_cfg l).succs).getD i [] ↔
        i ∈ ((Redex.build_cfg l).preds).getD j []) := by
  refine ⟨Redex.buildBlocks_flatten l, Redex.buildBlocks_ne_nil l,
    Redex.buildBlocks_mem_unique l, ?_⟩
  intro i j hi hj
  have hsucc : ((Redex.build_cfg l).succs).getD i []
      = Redex.blockSuccs l (Redex.buildBlocks l) i :=
    Redex.getD_map_range _ _ _ _ hi
  have hpred : ((Redex.build_cfg l).preds).getD j []
      = Redex.blockPreds l (Redex.buildBlocks l) j :=
    Redex.getD_map_range _ _ _ _ hj
  rw [hsucc, hpred]
  have hi' : i < (Redex.buildBlocks l).length := hi
  unfold Redex.blockPreds
  rw [List.mem_filter]
  simp [List.mem_range, hi']

/-- Witness for C5 on the concrete node sequence. -/
theorem Redex.build_cfg_partition_symmetric_witness :
    ((Redex.build_cfg Redex.exNodes).blocks).flatten = Redex.exNodes.enum :=
  (Redex.build_cfg_partition_symmetric Redex.exNodes).1

/-- C6: the iterative DFS behind `PostOrderSort` terminates with an empty
stack; its output has no duplicates; a block appears in the output exactly
when it is reachable from the entry block (none missing, none extra); and
whenever a block `b` is about to be appended (its frame's successor list
is exhausted), every successor of `b` is either already in the output or
still pending on the stack — so a block is appended only after all of its
successors that are not pending have been appended, making the reversed
output a reverse postorder. -/
theorem Redex.PostOrderSort_spec (cfg : List (List Nat)) :
    (Redex.poRun cfg (Redex.poMeasure cfg (Redex.poInit cfg 0))
        (Redex.poInit cfg 0)).stack = [] ∧
    (Redex.PostOrderSort cfg).Nodup ∧
    (∀ b, b ∈ Redex.PostOrderSort cfg ↔ Redex.Reach cfg 0 b) ∧
    (∀ n b rest,
      (Redex.poRun cfg n (Redex.poInit cfg 0)).stack
        = (b, ([] : List Nat)) :: rest →
      ∀ s ∈ Redex.succsOf cfg b,
        s ∈ (Redex.poRun cfg n (Redex.poInit cfg 0)).out ∨
          s ∈ b :: Redex.stackBlocks rest) := by
  have hinit := Redex.poInit_inv cfg 0
  have hstack := Redex.poRun_empties cfg 0
    (Redex.poMeasure cfg (Redex.poInit cfg 0)) (Redex.poInit cfg 0) hinit
    (le_refl _)
  have hfin := Redex.poRun_inv cfg 0
    (Redex.poMeasure cfg (Redex.poInit cfg 0)) (Redex.poInit cfg 0) hinit
  refine ⟨hstack, ?_, ?_, ?_⟩
  · have h := hfin.nodup
    rw [hstack] at h
    show ((Redex.poRun cfg (Redex.poMeasure cfg (Redex.poInit cfg 0))
      (Redex.poInit cfg 0)).out).Nodup
    simpa [Redex.stackBlocks] using h
  · intro b
    constructor
    · intro hb
      exact hfin.reach b ((hfin.visited_iff b).mpr (Or.inl hb))
    · intro hr
      unfold Redex.Reach at hr
      induction hr with
      | refl =>
        have h0 : (0 : Nat) ∈ (Redex.poInit cfg 0).visited := by
          simp [Redex.poInit]
        have h0' := Redex.poRun_visited_mono cfg
          (Redex.poMeasure cfg (Redex.poInit cfg 0)) (Redex.poInit cfg 0) 0 h0
        rcases (hfin.visited_iff 0).mp h0' with h | h
        · exact h
        · rw [hstack] at h
          simp [Redex.stackBlocks] at h
      | tail hxy edge ih =>
        have hs := hfin.out_closed _ ih _ edge
        rcases (hfin.visited_iff _).mp hs with h | h
        · exact h
        · rw [hstack] at h
          simp [Redex.stackBlocks] at h
  · intro n b rest hstk s hs
    have hinvn := Redex.poRun_inv cfg 0 n (Redex.poInit cfg 0) hinit
    have hmem : (b, ([] : List Nat))
        ∈ (Redex.poRun cfg n (Redex.poInit cfg 0)).stack := by
      rw [hstk]
      exact List.mem_cons_self _ _
    obtain ⟨pre, hpre, hprev⟩ := hinvn.stack_inv (b, []) hmem
    have hpre' : Redex.succsOf cfg b = pre ++ [] := hpre
    have hsv : s ∈ (Redex.poRun cfg n (Redex.poInit cfg 0)).visited := by
      apply hprev
      rw [hpre'] at hs
      simpa using hs
    rcases (hinvn.visited_iff s).mp hsv with h | h
    · exact Or.inl h
    · rw [hstk] at h
      exact Or.inr h

/-- Witness for C6: block 2 is reachable in the example CFG and is
produced by the sequencer. -/
theorem Redex.PostOrderSort_spec_witness :
    2 ∈ Redex.PostOrderSort Redex.exCfg := by
  refine ((Redex.PostOrderSort_spec Redex.exCfg).2.2.1 2).mpr ?_
  have h1 : Relation.ReflTransGen
      (fun x y => y ∈ Redex.succsOf Redex.exCfg x) 0 1 :=
    Relation.ReflTransGen.tail Relation.ReflTransGen.refl (by decide)
  exact Relation.ReflTransGen.tail h1 (by decide)

/-- C7: `inline_tail_call` removes exactly one node (the call at position
`i`) and inserts exactly the callee's `L` nodes, for a net node-count
change of `L - 1`; the prefix before the call and the suffix after it are
untouched; the inserted segment is the callee body with registers
remapped; and the callee's parameter registers map 1:1, in positional
order, onto the registers passed at the call site. -/
theorem Redex.inline_tail_call_arith (caller : List Redex.DexInsn)
    (callee : Redex.CalleeBody) (args : List Nat) (i : Nat)
    (hi : i < caller.length) (hnd : callee.params.Nodup) :
    (Redex.inline_tail_call caller callee args i).length + 1
        = caller.length + callee.body.length ∧
    (Redex.inline_tail_call caller callee args i).take i = caller.take i ∧
    (Redex.inline_tail_call caller callee args i).drop (i + callee.body.length)
        = caller.drop (i + 1) ∧
    ((Redex.inline_tail_call caller callee args i).drop i).take callee.body.length
        = callee.body.map (Redex.remapInsn callee.params args) ∧
    ∀ k, k < callee.params.length →
      Redex.remapReg callee.params args (callee.params.getD k 0)
        = args.getD k 0 := by
  have hA : (caller.take i).length = i := by
    rw [List.length_take]
    exact Nat.min_eq_left (Nat.le_of_lt hi)
  have hB : (callee.body.map (Redex.remapInsn callee.params args)).length
      = callee.body.length := List.length_map _ _
  refine ⟨?_, ?_, ?_, ?_, ?_⟩
  · unfold Redex.inline_tail_call
    simp only [List.length_append, List.length_map, List.length_drop, hA]
    omega
  · unfold Redex.inline_tail_call
    rw [List.append_assoc, List.take_left' hA]
  · unfold Redex.inline_tail_call
    refine List.drop_left' ?_
    rw [List.length_append, hA, hB]
  · unfold Redex.inline_tail_call
    rw [List.append_assoc, List.drop_left' hA, List.take_left' hB]
  · intro k hk
    unfold Redex.remapReg
    rw [Redex.posOf_getD callee.params k hnd hk]

/-- Witness for C7 at a concrete caller, callee and call site. -/
theorem Redex.inline_tail_call_arith_witness :
    (1 : Nat) < ([⟨9, []⟩, ⟨99, [4]⟩] : List Redex.DexInsn).length ∧
      ([0] : List Nat).Nodup ∧
    ((Redex.inline_tail_call [⟨9, []⟩, ⟨99, [4]⟩] ⟨[0], [⟨7, [0]⟩, ⟨8, [2]⟩]⟩
        [4] 1).length + 1
        = ([⟨9, []⟩, ⟨99, [4]⟩] : List Redex.DexInsn).length
            + ([⟨7, [0]⟩, ⟨8, [2]⟩] : List Redex.DexInsn).length ∧
      (Redex.inline_tail_call [⟨9, []⟩, ⟨99, [4]⟩] ⟨[0], [⟨7, [0]⟩, ⟨8, [2]⟩]⟩
        [4] 1).take 1 = ([⟨9, []⟩, ⟨99, [4]⟩] : List Redex.DexInsn).take 1 ∧
      (Redex.inline_tail_call [⟨9, []⟩, ⟨99, [4]⟩] ⟨[0], [⟨7, [0]⟩, ⟨8, [2]⟩]⟩
        [4] 1).drop (1 + ([⟨7, [0]⟩, ⟨8, [2]⟩] : List Redex.DexInsn).length)
        = ([⟨9, []⟩, ⟨99, [4]⟩] : List Redex.DexInsn).drop (1 + 1) ∧
      ((Redex.inline_tail_call [⟨9, []⟩, ⟨99, [4]⟩] ⟨[0], [⟨7, [0]⟩, ⟨8, [2]⟩]⟩
        [4] 1).drop 1).take ([⟨7, [0]⟩, ⟨8, [2]⟩] : List Redex.DexInsn).length
        = ([⟨7, [0]⟩, ⟨8, [2]⟩] : List Redex.DexInsn).map
            (Redex.remapInsn [0] [4]) ∧
      ∀ k, k < ([0] : List Nat).length →
        Redex.remapReg [0] [4] (([0] : List Nat).getD k 0)
          = ([4] : List Nat).getD k 0) :=
  ⟨by decide, by decide,
    Redex.inline_tail_call_arith [⟨9, []⟩, ⟨99, [4]⟩] ⟨[0], [⟨7, [0]⟩, ⟨8, [2]⟩]⟩
      [4] 1 (by decide) (by decide)⟩

/-- C8: when the register budget cannot be satisfied even after widening,
or the callee's exception-region structure is incompatible with splicing
at the call site, `inline_16regs` returns `false` (a value, not an error)
and leaves the caller's instruction sequence unchanged. -/
theorem Redex.inline_16regs_reports_false (ctx : Redex.InlineBudget)
    (callee : Redex.Callee16) (caller : List Redex.DexInsn) (site : Nat)
    (h : Redex.budgetOk ctx callee.regsNeeded = false ∨
      Redex.excCompatible ctx callee = false) :
    Redex.inline_16regs ctx callee caller site = (false, caller) := by
  unfold Redex.inline_16regs
  rcases h with h | h <;> simp [h]

/-- Witness for C8: a callee needing 20 registers against a full
16-register caller frame with no dead registers is rejected. -/
theorem Redex.inline_16regs_reports_false_witness :
    Redex.budgetOk ⟨16, [], false⟩ (20 : Nat) = false ∧
    Redex.inline_16regs ⟨16, [], false⟩ ⟨20, [], []⟩ [⟨1, [0]⟩] 0
      = (false, [⟨1, [0]⟩]) :=
  ⟨by decide,
    Redex.inline_16regs_reports_false ⟨16, [], false⟩ ⟨20, [], []⟩ [⟨1, [0]⟩] 0
      (Or.inl (by decide))⟩

/-- C1: encoding after decoding round-trips.  For every encoded method
that decodes (`balloon M = some ir`), `sync ir` produces an encoded method
`M'` that decodes back to an IR with the same instructions in the same
order, the same branch targets and the same exception-region structure as
`ir` (`irEquiv`), and whose opcode sequence equals `M`'s — while absolute
addresses and branch offsets are left unconstrained and may differ. -/
theorem Redex.balloon_sync_roundtrip (M : Redex.EncodedMethod)
    (ir : Redex.IRMethod) (h : Redex.balloon M = some ir) :
    ∃ M' irF, Redex.sync ir = some M' ∧ Redex.balloon M' = some irF ∧
      Redex.irEquiv ir irF ∧
      M'.insns.map Redex.EInsn.op = M.insns.map Redex.EInsn.op := by
  obtain ⟨⟨hwfI, hwfT⟩, hlenM, hopsM⟩ := Redex.balloon_spec M ir h
  obtain ⟨mf, hloop, hfb, hskel, htries, hlen⟩ :=
    Redex.syncLoop_spec (Redex.narrowCount ir + 1) ir (by omega)
  have hsync : Redex.sync ir = some (Redex.emit mf) := by
    unfold Redex.sync
    rw [hloop]
    rfl
  have hwfmf : Redex.wfIR mf := by
    constructor
    · rw [hlen]
      exact Redex.wfInsns_of_skel_eq _ ir.insns mf.insns hskel hwfI
    · intro t ht
      rw [htries] at ht
      have hw := hwfT t ht
      rw [hlen]
      exact hw
  have hball : Redex.balloon (Redex.emit mf) = some mf :=
    Redex.balloon_emit mf hwfmf
  refine ⟨Redex.emit mf, mf, hsync, hball, ⟨hskel.symm, htries.symm⟩, ?_⟩
  have e1 : (Redex.emit mf).insns.map Redex.EInsn.op
      = mf.insns.map Redex.IRInsn.op := Redex.emitInsns_ops mf.insns mf.insns 0
  rw [e1, Redex.map_op_of_skel_eq mf.insns ir.insns hskel, hopsM]

/-- Witness for C1: the example encoded method decodes to `exIR` and the
round trip goes through on it. -/
theorem Redex.balloon_sync_roundtrip_witness :
    Redex.balloon Redex.exE = some Redex.exIR ∧
    ∃ M' irF, Redex.sync Redex.exIR = some M' ∧ Redex.balloon M' = some irF ∧
      Redex.irEquiv Redex.exIR irF ∧
      M'.insns.map Redex.EInsn.op = Redex.exE.insns.map Redex.EInsn.op :=
  ⟨by decide, Redex.balloon_sync_roundtrip Redex.exE Redex.exIR (by decide)⟩

/-- C2: one failing `try_sync` pass only widens (every instruction's
encoding width is monotonically non-decreasing) and strictly decreases the
number of instructions still capable of widening, so within one `sync` the
loop reaches `true` after at most `narrowCount` failing iterations — no
iteration cap is needed. -/
theorem Redex.try_sync_monotone_terminating (m : Redex.IRMethod) :
    (∀ m', Redex.try_sync m = (false, m') →
      m'.insns.length = m.insns.length ∧
      (∀ j, ((m.insns.getD j default).bw).units
        ≤ ((m'.insns.getD j default).bw).units) ∧
      Redex.narrowCount m' < Redex.narrowCount m) ∧
    ∃ mf, Redex.syncLoop (Redex.narrowCount m + 1) m = some mf ∧
      (Redex.try_sync mf).1 = true := by
  constructor
  · intro m' h
    obtain ⟨hlen, _, _, hw, hcount⟩ := Redex.try_sync_false_progress m m' h
    exact ⟨hlen, hw, hcount⟩
  · obtain ⟨mf, hloop, hfb, _⟩ :=
      Redex.syncLoop_spec (Redex.narrowCount m + 1) m (by omega)
    exact ⟨mf, hloop, by rw [Redex.try_sync_of_firstBad_none mf hfb]⟩

/-- Witness for C2: the example method converges within its widening
bound. -/
theorem Redex.try_sync_monotone_terminating_witness :
    ∃ mf, Redex.syncLoop (Redex.narrowCount Redex.exM + 1) Redex.exM = some mf ∧
      (Redex.try_sync mf).1 = true :=
  (Redex.try_sync_monotone_terminating Redex.exM).2

/-- C3: when some branch operand does not fit its currently chosen width,
`try_sync` mutates exactly that one instruction in place to a wider
encoding (narrow to wide, all other fields and all other instructions
untouched) and returns `false` as an ordinary value; and `sync`'s loop
simply continues from the mutated method. -/
theorem Redex.try_sync_widens_in_place (m : Redex.IRMethod) (i : Nat)
    (h : Redex.firstBad m.insns = some i) :
    ∃ m', Redex.try_sync m = (false, m') ∧
      m'.insns.length = m.insns.length ∧
      (∀ j, j ≠ i → m'.insns.getD j default = m.insns.getD j default) ∧
      (m.insns.getD i default).bw = Redex.BW.narrow ∧
      (m'.insns.getD i default).bw = Redex.BW.wide ∧
      Redex.skel (m'.insns.getD i default) = Redex.skel (m.insns.getD i default) ∧
      (m.insns.getD i default).width < (m'.insns.getD i default).width ∧
      m'.tries = m.tries ∧
      ∀ n, Redex.syncLoop (n + 1) m = Redex.syncLoop n m' := by
  obtain ⟨hlen, hbad⟩ := Redex.firstBad_some _ _ h
  obtain ⟨hbr, hnar⟩ := Redex.badAt_narrow _ _ hbad
  have hts := Redex.try_sync_of_firstBad_some m i h
  refine ⟨_, hts, by simp, ?_, hnar, ?_, ?_, ?_, rfl, ?_⟩
  · intro j hj
    exact Redex.getD_set_ne _ _ _ _ hj
  · rw [Redex.getD_set_self _ _ _ hlen]
    rfl
  · rw [Redex.getD_set_self _ _ _ hlen]
    exact Redex.skel_widen _
  · rw [Redex.getD_set_self _ _ _ hlen]
    unfold Redex.IRInsn.width Redex.widen
    rw [hbr, hnar]
    simp [Redex.BW.units]
  · intro n
    simp [Redex.syncLoop, hts]

/-- Witness for C3: the example method's leading narrow branch does not
fit and gets widened in place. -/
theorem Redex.try_sync_widens_in_place_witness :
    Redex.firstBad Redex.exM.insns = some 0 ∧
    ∃ m', Redex.try_sync Redex.exM = (false, m') ∧
      m'.insns.length = Redex.exM.insns.length ∧
      (∀ j, j ≠ 0 → m'.insns.getD j default = Redex.exM.insns.getD j default) ∧
      (Redex.exM.insns.getD 0 default).bw = Redex.BW.narrow ∧
      (m'.insns.getD 0 default).bw = Redex.BW.wide ∧
      Redex.skel (m'.insns.getD 0 default)
        = Redex.skel (Redex.exM.insns.getD 0 default) ∧
      (Redex.exM.insns.getD 0 default).width < (m'.insns.getD 0 default).width ∧
      m'.tries = Redex.exM.tries ∧
      ∀ n, Redex.syncLoop (n + 1) Redex.exM = Redex.syncLoop n m' :=
  ⟨by decide, Redex.try_sync_widens_in_place Redex.exM 0 (by decide)⟩

/-- C4: two `get_method_transform` calls for the same method, with any
sequence of further `get_method_transform` calls (but no global flush) in
between, return the identical transform instance; and after `sync_all`
the cache holds no entry for the method. -/
theorem Redex.cache_identity_and_flush (s : Redex.CacheState) (m : Nat)
    (ms : List Nat) :
    (Redex.get_method_transform m
        (Redex.runGets ms (Redex.get_method_transform m s).2)).1
      = (Redex.get_method_transform m s).1 ∧
    Redex.lookupCache m (Redex.sync_all s).cache = none := by
  constructor
  · have h1 := Redex.get_method_transform_cached m s
    have h2 := Redex.lookupCache_runGets ms m _ _ h1
    rw [Redex.get_method_transform_hit m _ _ h2]
  · rfl
